import Mathlib

/-!
Verification of the JSON-extraction and event-journal core of the
a5c babysitter orchestrator scripts.

The two source files modelled here are
`.a5c/orchestrator_scripts/extract_first_json.py` (the extractor) and
`.a5c/orchestrator_scripts/a5c_append_event.py` (the journal appender).
Both delegate JSON parsing and serialization to the Python `json`
module, so the model contains a shallow embedding of the relevant
behavior of `json.loads` and `json.dumps` alongside the two scripts.

Modelling notes, applying throughout:
* JSON numbers are modelled as integers.  Float literals (fraction or
  exponent parts, NaN/Infinity) are outside the model: a candidate text
  containing one simply fails to parse here, while Python would produce
  a float.  Every number appearing in the repository's data model
  (`nextEventId`, event ids) is integral.
* Python strings that contain lone surrogates are not representable as
  Lean strings; a `\uXXXX` escape denoting a lone surrogate is treated
  as a parse failure (Python would produce a lone-surrogate string).
* `\uXXXX` escapes are modelled with standard hex digits only; the
  accidental acceptance of whitespace or underscores by Python's
  `int(esc, 16)` is not modelled.
-/

/-- The braces, kept as named characters. -/
def lbrace : Char := Char.ofNat 123

def rbrace : Char := Char.ofNat 125

/-- JSON values as produced by the Python json module.  Object members
keep their insertion order, as Python dicts do. -/
inductive JsonValue where
  | null
  | bool (b : Bool)
  | num (n : Int)
  | str (s : String)
  | arr (elems : List JsonValue)
  | obj (fields : List (String × JsonValue))

mutual
def jsize : JsonValue → Nat
  | .null => 1
  | .bool _ => 1
  | .num _ => 1
  | .str _ => 1
  | .arr xs => 1 + jsizeL xs
  | .obj ps => 1 + jsizeP ps
def jsizeL : List JsonValue → Nat
  | [] => 0
  | x :: xs => 1 + jsize x + jsizeL xs
def jsizeP : List (String × JsonValue) → Nat
  | [] => 0
  | (_, v) :: ps => 1 + jsize v + jsizeP ps
end

/-- Python dict insertion: updating an existing key keeps its position,
a new key is appended at the end. -/
def insertPair : List (String × JsonValue) → String → JsonValue → List (String × JsonValue)
  | [], k, v => [(k, v)]
  | (k0, v0) :: ps, k, v => if k0 = k then (k, v) :: ps else (k0, v0) :: insertPair ps k v

/-- First-match association lookup (Python dict lookup; the lists built
by the parser and by `insertPair` have distinct keys). -/
def lookupKey : List (String × JsonValue) → String → Option JsonValue
  | [], _ => none
  | (k0, v0) :: ps, k => if k0 = k then some v0 else lookupKey ps k

/-- Whitespace skipped by the Python json module: space, tab, newline,
carriage return. -/
def isJsonWs (c : Char) : Bool := c = ' ' || c = '\t' || c = '\n' || c = '\r'

def skipWs : List Char → List Char
  | [] => []
  | c :: cs => if isJsonWs c then skipWs cs else c :: cs

def hexVal? (c : Char) : Option Nat :=
  if '0' ≤ c ∧ c ≤ '9' then some (c.toNat - 48)
  else if 'a' ≤ c ∧ c ≤ 'f' then some (c.toNat - 87)
  else if 'A' ≤ c ∧ c ≤ 'F' then some (c.toNat - 55)
  else none

def hex4? (h1 h2 h3 h4 : Char) : Option Nat :=
  match hexVal? h1, hexVal? h2, hexVal? h3, hexVal? h4 with
  | some a, some b, some c, some d => some (a * 4096 + b * 256 + c * 16 + d)
  | _, _, _, _ => none

/-- Decode one backslash escape of the Python json string scanner (the
characters after the backslash): the decoded character and the
remaining input.  Surrogate pairs in `\uXXXX` escapes are combined; a
lone surrogate is a failure here (Python would build a lone-surrogate
string, which Lean strings cannot hold). -/
def escDecode : List Char → Option (Char × List Char)
  | [] => none
  | e :: cs =>
    if e = 'u' then
      match cs with
      | h1 :: h2 :: h3 :: h4 :: cs3 =>
        match hex4? h1 h2 h3 h4 with
        | none => none
        | some n =>
          if n < 0xd800 then some (Char.ofNat n, cs3)
          else if n ≤ 0xdbff then
            match cs3 with
            | b2 :: u2 :: g1 :: g2 :: g3 :: g4 :: cs4 =>
              if b2 = '\\' ∧ u2 = 'u' then
                match hex4? g1 g2 g3 g4 with
                | none => none
                | some m =>
                  if 0xdc00 ≤ m ∧ m ≤ 0xdfff then
                    some (Char.ofNat (0x10000 + (n - 0xd800) * 0x400 + (m - 0xdc00)), cs4)
                  else none
              else none
            | _ => none
          else none
      | _ => none
    else if e = '"' then some ('"', cs)
    else if e = '\\' then some ('\\', cs)
    else if e = '/' then some ('/', cs)
    else if e = 'b' then some (Char.ofNat 8, cs)
    else if e = 'f' then some (Char.ofNat 12, cs)
    else if e = 'n' then some ('\n', cs)
    else if e = 'r' then some ('\r', cs)
    else if e = 't' then some ('\t', cs)
    else none

/-- Model of the Python json string scanner (`py_scanstring`) after the
opening quote: `acc` holds the decoded characters so far, reversed.
Raw control characters are rejected (strict mode) and escapes are
decoded.  The fuel argument only makes the recursion structural: any
fuel above the input length is exact, and callers pass length + 1. -/
def parseStringBody : Nat → List Char → List Char → Option (String × List Char)
  | 0, _, _ => none
  | _ + 1, [], _ => none
  | f + 1, c :: cs, acc =>
    if c = '"' then some (String.mk acc.reverse, cs)
    else if c = '\\' then
      match escDecode cs with
      | some (d, cs2) => parseStringBody f cs2 (d :: acc)
      | none => none
    else if c.toNat < 0x20 then none
    else parseStringBody f cs (c :: acc)

/-- Decimal digits of `n`, least significant first; the fuel argument
makes the recursion structural (any fuel at least `n` is exact). -/
def natDigitsAux : Nat → Nat → List Nat
  | 0, _ => []
  | _ + 1, 0 => []
  | f + 1, n => n % 10 :: natDigitsAux f (n / 10)

def digitVal (c : Char) : Nat := c.toNat - 48

def natFromDigits (cs : List Char) : Nat := cs.foldl (fun a c => 10 * a + digitVal c) 0

/-- Model of the integer case of the Python json number grammar
`-?(0|[1-9][0-9]*)`.  A fraction or exponent part would make the number
a float, which is outside this model, so such input fails in a later
step instead of producing a float. -/
def parseNatToken : List Char → Option (Nat × List Char)
  | [] => none
  | c :: cs =>
    if c = '0' then some (0, cs)
    else if c.isDigit then
      some (natFromDigits (c :: cs.takeWhile Char.isDigit), cs.dropWhile Char.isDigit)
    else none

def parseIntToken : List Char → Option (Int × List Char)
  | '-' :: cs => (parseNatToken cs).map (fun p => (-(p.1 : Int), p.2))
  | cs => (parseNatToken cs).map (fun p => ((p.1 : Int), p.2))

mutual
/-- Model of the Python json scanner `_scan_once`: parse one JSON value
at the head of the input (no leading whitespace skip), returning the
value and the remaining characters.  Fuel bounds the recursion depth
(Python instead raises RecursionError at extreme depth). -/
def parseValue : Nat → List Char → Option (JsonValue × List Char)
  | 0, _ => none
  | f + 1, cs =>
    match cs with
    | [] => none
    | c :: rest =>
      if c = lbrace then
        match skipWs rest with
        | c2 :: rest2 =>
          if c2 = rbrace then some (.obj [], rest2) else parseMembers f (c2 :: rest2) []
        | [] => none
      else if c = '[' then
        match skipWs rest with
        | c2 :: rest2 =>
          if c2 = ']' then some (.arr [], rest2) else parseElems f (c2 :: rest2) []
        | [] => none
      else if c = '"' then
        match parseStringBody (rest.length + 1) rest [] with
        | some (s, rest2) => some (.str s, rest2)
        | none => none
      else if c = 't' then
        if rest.take 3 = ['r', 'u', 'e'] then some (.bool true, rest.drop 3) else none
      else if c = 'f' then
        if rest.take 4 = ['a', 'l', 's', 'e'] then some (.bool false, rest.drop 4) else none
      else if c = 'n' then
        if rest.take 3 = ['u', 'l', 'l'] then some (.null, rest.drop 3) else none
      else (parseIntToken cs).map (fun p => (.num p.1, p.2))

/-- Member loop of the Python json `JSONObject` parser; the input starts
at a key quote (whitespace already skipped), `acc` holds the members
parsed so far, combined with dict-insertion semantics. -/
def parseMembers : Nat → List Char → List (String × JsonValue) →
    Option (JsonValue × List Char)
  | 0, _, _ => none
  | _ + 1, [], _ => none
  | f + 1, c :: rest, acc =>
    if c = '"' then
      match parseStringBody (rest.length + 1) rest [] with
      | none => none
      | some (k, r1) =>
        match skipWs r1 with
        | ':' :: r2 =>
          match parseValue f (skipWs r2) with
          | none => none
          | some (v, r3) =>
            match skipWs r3 with
            | c4 :: r4 =>
              if c4 = rbrace then some (.obj (insertPair acc k v), r4)
              else if c4 = ',' then parseMembers f (skipWs r4) (insertPair acc k v)
              else none
            | [] => none
        | _ => none
    else none

/-- Element loop of the Python json `JSONArray` parser; the input starts
at an element (whitespace already skipped), `acc` holds the elements
parsed so far, reversed. -/
def parseElems : Nat → List Char → List JsonValue → Option (JsonValue × List Char)
  | 0, _, _ => none
  | f + 1, cs, acc =>
    match parseValue f cs with
    | none => none
    | some (v, r1) =>
      match skipWs r1 with
      | c2 :: r2 =>
        if c2 = ']' then some (.arr (v :: acc).reverse, r2)
        else if c2 = ',' then parseElems f (skipWs r2) (v :: acc)
        else none
      | [] => none
end

/-- Model of Python `json.loads` on an already-decoded text: skip
leading whitespace, parse one value, require only whitespace to remain
("Extra data" otherwise). -/
def loadsList (cs : List Char) : Option JsonValue :=
  match parseValue (cs.length + 1) (skipWs cs) with
  | some (v, rest) => if skipWs rest = [] then some v else none
  | none => none

def loads (s : String) : Option JsonValue := loadsList s.data

def hexDigitChar (n : Nat) : Char := if n < 10 then Char.ofNat (48 + n) else Char.ofNat (87 + n)

/-- Escaping performed by the Python json encoder for one character
with ensure_ascii=False: escape the quote, the backslash, and control
characters (short escapes for backspace, tab, newline, formfeed,
carriage return; `\u00xx` for the rest), pass everything else through. -/
def escChar (c : Char) : List Char :=
  if c = '"' then ['\\', '"']
  else if c = '\\' then ['\\', '\\']
  else if c = Char.ofNat 8 then ['\\', 'b']
  else if c = '\t' then ['\\', 't']
  else if c = '\n' then ['\\', 'n']
  else if c = Char.ofNat 12 then ['\\', 'f']
  else if c = '\r' then ['\\', 'r']
  else if c.toNat < 0x20 then
    ['\\', 'u', '0', '0', hexDigitChar (c.toNat / 16), hexDigitChar (c.toNat % 16)]
  else [c]

def escapeChars : List Char → List Char
  | [] => []
  | c :: cs => escChar c ++ escapeChars cs

def encodeStringList (s : String) : List Char := '"' :: escapeChars s.data ++ ['"']

def natToChars (n : Nat) : List Char :=
  if n = 0 then ['0'] else (natDigitsAux n n).reverse.map (fun d => Char.ofNat (48 + d))

/-- Python `str` of an int. -/
def intToChars (n : Int) : List Char :=
  if n < 0 then '-' :: natToChars (-n).toNat else natToChars n.toNat

mutual
/-- Model of Python `json.dumps(..., ensure_ascii=False)` with default
separators (", " between items, ": " after keys), as used for journal
entries. -/
def dumpsC : JsonValue → List Char
  | .null => "null".data
  | .bool true => "true".data
  | .bool false => "false".data
  | .num n => intToChars n
  | .str s => encodeStringList s
  | .arr [] => ['[', ']']
  | .arr (x :: xs) => '[' :: dumpsC x ++ dumpsCElems xs ++ [']']
  | .obj [] => [lbrace, rbrace]
  | .obj (p :: ps) => lbrace :: dumpsCPair p ++ dumpsCMembers ps ++ [rbrace]
def dumpsCPair : String × JsonValue → List Char
  | (k, v) => encodeStringList k ++ ':' :: ' ' :: dumpsC v
def dumpsCElems : List JsonValue → List Char
  | [] => []
  | x :: xs => ',' :: ' ' :: dumpsC x ++ dumpsCElems xs
def dumpsCMembers : List (String × JsonValue) → List Char
  | [] => []
  | p :: ps => ',' :: ' ' :: dumpsCPair p ++ dumpsCMembers ps
end

def spacesList : Nat → List Char
  | 0 => []
  | n + 1 => ' ' :: spacesList n

mutual
/-- Model of Python `json.dumps(..., ensure_ascii=False, indent=2)`, as
used for the extractor output file and the state record; `ind` is the
current indentation width. -/
def dumpsI : Nat → JsonValue → List Char
  | _, .null => ['n', 'u', 'l', 'l']
  | _, .bool true => ['t', 'r', 'u', 'e']
  | _, .bool false => ['f', 'a', 'l', 's', 'e']
  | _, .num n => intToChars n
  | _, .str s => encodeStringList s
  | _, .arr [] => ['[', ']']
  | ind, .arr (x :: xs) =>
    '[' :: '\n' :: spacesList (ind + 2) ++ dumpsI (ind + 2) x
      ++ dumpsIElems ind xs ++ '\n' :: spacesList ind ++ [']']
  | _, .obj [] => [lbrace, rbrace]
  | ind, .obj (p :: ps) =>
    lbrace :: '\n' :: spacesList (ind + 2) ++ dumpsIPair ind p
      ++ dumpsIMembers ind ps ++ '\n' :: spacesList ind ++ [rbrace]
def dumpsIPair : Nat → String × JsonValue → List Char
  | ind, (k, v) => encodeStringList k ++ ':' :: ' ' :: dumpsI (ind + 2) v
def dumpsIElems : Nat → List JsonValue → List Char
  | _, [] => []
  | ind, x :: xs =>
    ',' :: '\n' :: spacesList (ind + 2) ++ dumpsI (ind + 2) x ++ dumpsIElems ind xs
def dumpsIMembers : Nat → List (String × JsonValue) → List Char
  | _, [] => []
  | ind, p :: ps =>
    ',' :: '\n' :: spacesList (ind + 2) ++ dumpsIPair ind p ++ dumpsIMembers ind ps
end

def dumpsCompactStr (v : JsonValue) : String := String.mk (dumpsC v)

def dumpsIndentStr (v : JsonValue) : String := String.mk (dumpsI 0 v)

/-- The text the extract-first-json tool writes for an extracted value:
indent-2 serialization plus a trailing newline. -/
def extractorOutput (v : JsonValue) : String := String.mk (dumpsI 0 v ++ ['\n'])

def isOpenBracket (c : Char) : Bool := c = lbrace || c = '['

/-- Candidate start positions: every index of the decoded text holding a
brace or bracket, left to right (the `re.finditer` loop of
extract_first_json). -/
def startsOf (cs : List Char) : List Nat :=
  (List.range cs.length).filter (fun i => isOpenBracket (cs.getD i ' '))

/-- Candidate end offsets for a given start: text length down to
start+1 (the `range(len(text), start, -1)` loop). -/
def endsOf (len start : Nat) : List Nat := (List.range (len - start)).map (fun k => len - k)

def sliceOf (cs : List Char) (s e : Nat) : List Char := (cs.drop s).take (e - s)

/-- One start position of extract_first_json: try every truncation of
the text from this position, longest first, returning the first chunk
json.loads accepts. -/
def tryStart (cs : List Char) (s : Nat) : Option JsonValue :=
  (endsOf cs.length s).findSome? (fun e => loadsList (sliceOf cs s e))

/-- Model of `extract_first_json`: scan the bracket positions left to
right; `none` models the `ValueError("No JSON object/array found.")`. -/
def extractFirstJson (cs : List Char) : Option JsonValue :=
  (startsOf cs).findSome? (tryStart cs)

/-- The Unicode replacement character U+FFFD. -/
def replChar : Char := Char.ofNat 0xfffd

/-- Valid second byte for a given UTF-8 lead byte (the constrained
ranges for E0/ED/F0/F4 that exclude overlong encodings, surrogates and
out-of-range code points). -/
def utf8Cont2Ok (b b2 : Nat) : Bool :=
  if b = 0xe0 then 0xa0 ≤ b2 && b2 ≤ 0xbf
  else if b = 0xed then 0x80 ≤ b2 && b2 ≤ 0x9f
  else if b = 0xf0 then 0x90 ≤ b2 && b2 ≤ 0xbf
  else if b = 0xf4 then 0x80 ≤ b2 && b2 ≤ 0x8f
  else 0x80 ≤ b2 && b2 ≤ 0xbf

def isUtf8Cont (b : Nat) : Bool := 0x80 ≤ b && b ≤ 0xbf

/-- Model of CPython bytes.decode("utf-8", errors="replace"): strict
UTF-8, with each maximal ill-formed subpart replaced by U+FFFD and
decoding continuing at the following byte. -/
def utf8Replace : List Nat → List Char
  | [] => []
  | b :: rest =>
    if b < 0x80 then Char.ofNat b :: utf8Replace rest
    else if b < 0xc2 || 0xf4 < b then replChar :: utf8Replace rest
    else
      match rest with
      | [] => [replChar]
      | b2 :: rest2 =>
        if !utf8Cont2Ok b b2 then replChar :: utf8Replace (b2 :: rest2)
        else if b < 0xe0 then
          Char.ofNat ((b - 0xc0) * 64 + (b2 - 0x80)) :: utf8Replace rest2
        else
          match rest2 with
          | [] => [replChar]
          | b3 :: rest3 =>
            if !isUtf8Cont b3 then replChar :: utf8Replace (b3 :: rest3)
            else if b < 0xf0 then
              Char.ofNat ((b - 0xe0) * 4096 + (b2 - 0x80) * 64 + (b3 - 0x80))
                :: utf8Replace rest3
            else
              match rest3 with
              | [] => [replChar]
              | b4 :: rest4 =>
                if !isUtf8Cont b4 then replChar :: utf8Replace (b4 :: rest4)
                else
                  Char.ofNat ((b - 0xf0) * 262144 + (b2 - 0x80) * 4096
                      + (b3 - 0x80) * 64 + (b4 - 0x80))
                    :: utf8Replace rest4

/-- Code units of a UTF-16 byte string, little or big endian; none
models the UnicodeDecodeError raised on a truncated final unit. -/
def utf16Units (le : Bool) : List Nat → Option (List Nat)
  | [] => some []
  | [_] => none
  | a :: b :: rest =>
    match utf16Units le rest with
    | some us => some ((if le then a + 256 * b else 256 * a + b) :: us)
    | none => none

/-- Combine UTF-16 code units, pairing surrogates; none models the
UnicodeDecodeError raised on a lone surrogate (this codec is strict). -/
def utf16Combine : List Nat → Option (List Char)
  | [] => some []
  | u :: us =>
    if u < 0xd800 || 0xdfff < u then
      match utf16Combine us with
      | some cs => some (Char.ofNat u :: cs)
      | none => none
    else if u ≤ 0xdbff then
      match us with
      | lo :: us2 =>
        if 0xdc00 ≤ lo && lo ≤ 0xdfff then
          match utf16Combine us2 with
          | some cs =>
            some (Char.ofNat (0x10000 + (u - 0xd800) * 0x400 + (lo - 0xdc00)) :: cs)
          | none => none
        else none
      | [] => none
    else none

/-- Model of bytes.decode("utf-16"): a leading BOM selects the byte
order and is stripped; without a BOM the codec falls back to the native
(little-endian) order, a case the dispatch below never reaches. -/
def utf16Decode (raw : List Nat) : Option (List Char) :=
  match raw with
  | 0xff :: 0xfe :: rest => (utf16Units true rest).bind utf16Combine
  | 0xfe :: 0xff :: rest => (utf16Units false rest).bind utf16Combine
  | _ => (utf16Units true raw).bind utf16Combine

/-- The decode step of extract_first_json's main: dispatch on the
leading bytes exactly as the source does.  none models a fatal
UnicodeDecodeError, which only the strict utf-16 path can raise; the
utf-8-sig branch strips the BOM and replaces invalid sequences. -/
def decodeInput (raw : List Nat) : Option (List Char) :=
  if raw.take 2 = [0xff, 0xfe] || raw.take 2 = [0xfe, 0xff] then utf16Decode raw
  else if raw.take 3 = [0xef, 0xbb, 0xbf] then some (utf8Replace (raw.drop 3))
  else some (utf8Replace raw)

/-- The single quote character, used by Python repr. -/
def squote : Char := Char.ofNat 39

mutual
/-- Python str()/repr() of a loaded JSON value (repr is used inside
containers), as applied by the appender to the nextEventId value.  The
repr of a string is modelled as the string between single quotes
without repr's own escaping; no claim depends on the container cases,
whose only use is an int() conversion that fails on them either way. -/
def pyStrChars : Bool → JsonValue → List Char
  | _, .null => ['N', 'o', 'n', 'e']
  | _, .bool true => ['T', 'r', 'u', 'e']
  | _, .bool false => ['F', 'a', 'l', 's', 'e']
  | _, .num n => intToChars n
  | asRepr, .str s => if asRepr then squote :: s.data ++ [squote] else s.data
  | _, .arr [] => ['[', ']']
  | _, .arr (x :: xs) => '[' :: pyStrChars true x ++ pyStrElemsChars xs ++ [']']
  | _, .obj [] => [lbrace, rbrace]
  | _, .obj (p :: ps) => lbrace :: pyStrPairChars p ++ pyStrMembersChars ps ++ [rbrace]
def pyStrPairChars : String × JsonValue → List Char
  | (k, v) => squote :: k.data ++ squote :: ':' :: ' ' :: pyStrChars true v
def pyStrElemsChars : List JsonValue → List Char
  | [] => []
  | x :: xs => ',' :: ' ' :: pyStrChars true x ++ pyStrElemsChars xs
def pyStrMembersChars : List (String × JsonValue) → List Char
  | [] => []
  | p :: ps => ',' :: ' ' :: pyStrPairChars p ++ pyStrMembersChars ps
end

def pyStr (v : JsonValue) : String := String.mk (pyStrChars false v)

/-- The whitespace removed by Python str.strip(). -/
def isPySpace (c : Char) : Bool :=
  c = ' ' || c = '\t' || c = '\n' || c = '\r' || c = Char.ofNat 11 || c = Char.ofNat 12

def pyStripList (cs : List Char) : List Char :=
  ((cs.dropWhile isPySpace).reverse.dropWhile isPySpace).reverse

def pyStrip (s : String) : String := String.mk (pyStripList s.data)

def allDigits : List Char → Bool
  | [] => true
  | c :: cs => c.isDigit && allDigits cs

/-- Python int(s) on a str argument: optional surrounding whitespace,
optional sign, decimal digits (underscore separators and non-ASCII
digits are not modelled); none models the ValueError. -/
def pyIntChars (cs0 : List Char) : Option Int :=
  match pyStripList cs0 with
  | '-' :: ds => if ds ≠ [] ∧ allDigits ds then some (-(natFromDigits ds : Int)) else none
  | '+' :: ds => if ds ≠ [] ∧ allDigits ds then some ((natFromDigits ds : Int)) else none
  | ds => if ds ≠ [] ∧ allDigits ds then some ((natFromDigits ds : Int)) else none

def pyInt (s : String) : Option Int := pyIntChars s.data

/-- The fatal exception kinds the appender can raise. -/
inductive PyError where
  | fileNotFound
  | jsonDecodeError
  | attributeError
  | valueError
deriving DecidableEq

/-- A run directory: the state record file contents (none when the
file is missing) and the journal file contents. -/
structure RunDir where
  stateFile : Option String
  journal : String

/-- Arguments of the append-event tool (argparse defaults are supplied
explicitly at call sites: data "\x7b\x7d", typ "event", timestamp "",
setStatus ""). -/
structure AppendArgs where
  eventName : String
  data : String
  typ : String
  timestamp : String
  setStatus : String

/-- args.data parsed leniently: json.loads, with the raw wrapper on
JSONDecodeError; this fallback is not an error. -/
def dataObjOf (d : String) : JsonValue :=
  match loads d with
  | some v => v
  | none => .obj [("raw", .str d)]

/-- The timestamp recorded: the stripped argument, or the supplied
current-time string when the stripped argument is empty. -/
def timestampOf (a : AppendArgs) (now : String) : String :=
  if pyStrip a.timestamp ≠ "" then pyStrip a.timestamp else now

/-- The journal entry dict built by the appender, in source order. -/
def mkEntry (a : AppendArgs) (now : String) (eid : String) : JsonValue :=
  .obj [("timestamp", .str (timestampOf a now)),
        ("type", .str a.typ),
        ("id", .str eid),
        ("event", .str a.eventName),
        ("data", dataObjOf a.data)]

/-- Model of a5c_append_event.main on a run directory.  The returned
RunDir reflects every file write performed before any uncaught
exception; the second component is the exception, none meaning exit
code 0.  now is the current UTC time string substituted when no
timestamp argument is supplied. -/
def appendEvent (fs : RunDir) (a : AppendArgs) (now : String) : RunDir × Option PyError :=
  match fs.stateFile with
  | none => (fs, some .fileNotFound)
  | some rawState =>
    match loads rawState with
    | none => (fs, some .jsonDecodeError)
    | some (JsonValue.obj fields) =>
      let eid : String := pyStr ((lookupKey fields "nextEventId").getD (.num 1))
      let entry := mkEntry a now eid
      let fs1 : RunDir := { fs with journal := fs.journal ++ dumpsCompactStr entry ++ "\n" }
      match pyInt eid with
      | none => (fs1, some .valueError)
      | some i =>
        let fields1 := insertPair fields "nextEventId" (.num (i + 1))
        let fields2 :=
          if a.setStatus ≠ "" then insertPair fields1 "status" (.str a.setStatus) else fields1
        ({ fs1 with stateFile := some (dumpsIndentStr (.obj fields2) ++ "\n") }, none)
    | some _ => (fs, some .attributeError)

/-- The process exit code of one appender invocation. -/
def exitCode (e : Option PyError) : Nat :=
  match e with
  | none => 0
  | some _ => 1

/-- The event id the appender assigns from the current state: the
str(state.get("nextEventId", 1)) expression, observed without running
the append. -/
def stateEventId (fs : RunDir) : Option String :=
  match fs.stateFile with
  | none => none
  | some rawState =>
    match loads rawState with
    | some (JsonValue.obj fields) =>
      some (pyStr ((lookupKey fields "nextEventId").getD (.num 1)))
    | _ => none

/-- Run a sequence of appender invocations; returns the final run
directory and, per call, the id the call read and its outcome. -/
def runAppends (fs : RunDir) :
    List (AppendArgs × String) → RunDir × List (Option String × Option PyError)
  | [] => (fs, [])
  | (a, now) :: calls =>
    let r := appendEvent fs a now
    let rest := runAppends r.1 calls
    (rest.1, (stateEventId fs, r.2) :: rest.2)

example : extractFirstJson "no brackets at all".data = none := rfl

example : skipWs "  \n x".data = ['x'] := rfl

example : loads "\x7b\"a\": 1\x7d" = some (.obj [("a", .num 1)]) := rfl

example : loads "[1, -20, \"x\", true, null]"
    = some (.arr [.num 1, .num (-20), .str "x", .bool true, .null]) := rfl

example : extractFirstJson "prefix \x7b\"a\":1\x7d suffix \x7b\"b\":2\x7d".data
    = some (.obj [("a", .num 1)]) := rfl

example : extractFirstJson "noise \x7b not json \x7d \x7b\"ok\":true\x7d".data
    = some (.obj [("ok", .bool true)]) := rfl

example : dumpsIndentStr (.obj [("a", .num 1), ("b", .arr [.num 2, .null])])
    = "\x7b\n  \"a\": 1,\n  \"b\": [\n    2,\n    null\n  ]\n\x7d" := rfl

example : dumpsCompactStr (.obj [("a", .num 1), ("b", .arr [.num 2, .null])])
    = "\x7b\"a\": 1, \"b\": [2, null]\x7d" := rfl

example : loads (extractorOutput (.obj [("a", .num 1), ("b", .arr [.num 2, .null])]))
    = some (.obj [("a", .num 1), ("b", .arr [.num 2, .null])]) := rfl

example :
    appendEvent ⟨some "\x7b\"nextEventId\":1\x7d", ""⟩ ⟨"x", "\x7b\x7d", "event", "", ""⟩ "T"
      = (⟨some "\x7b\n  \"nextEventId\": 2\n\x7d\n",
          "\x7b\"timestamp\": \"T\", \"type\": \"event\", \"id\": \"1\", \"event\": \"x\", \"data\": \x7b\x7d\x7d\n"⟩,
         none) := rfl

example :
    (appendEvent ⟨some "\x7b\x7d", ""⟩ ⟨"x", "\x7b\x7d", "event", "", ""⟩ "T").2 = none := rfl

example : decodeInput [0xef, 0xbb, 0xbf, 0x41] = some ['A'] := rfl

example : decodeInput [0xff, 0xfe, 0x41, 0x00] = some ['A'] := rfl

example : decodeInput [0xfe, 0xff, 0x00, 0x41] = some ['A'] := rfl

example : decodeInput [0x41, 0xff, 0x42] = some ['A', replChar, 'B'] := rfl

example : pyInt "12" = some 12 := rfl

example : pyInt "None" = none := rfl

example : pyStr (.num 7) = "7" := rfl

/-! ### Association list lemmas -/

theorem lookupKey_insertPair_self (ps : List (String × JsonValue)) (k : String) (v : JsonValue) :
    lookupKey (insertPair ps k v) k = some v := by
  induction ps with
  | nil => simp [insertPair, lookupKey]
  | cons p ps ih =>
    obtain ⟨k0, v0⟩ := p
    by_cases h : k0 = k
    · subst h; simp [insertPair, lookupKey]
    · simp [insertPair, lookupKey, h, ih]

theorem lookupKey_insertPair_ne (ps : List (String × JsonValue)) (k k' : String) (v : JsonValue)
    (h : k' ≠ k) : lookupKey (insertPair ps k v) k' = lookupKey ps k' := by
  induction ps with
  | nil => simp [insertPair, lookupKey, Ne.symm h]
  | cons p ps ih =>
    obtain ⟨k0, v0⟩ := p
    by_cases h0 : k0 = k
    · subst h0; simp [insertPair, lookupKey, Ne.symm h, h]
    · simp [insertPair, lookupKey, h0, ih]

theorem insertPair_of_notMem (ps : List (String × JsonValue)) (k : String) (v : JsonValue)
    (h : k ∉ ps.map Prod.fst) : insertPair ps k v = ps ++ [(k, v)] := by
  induction ps with
  | nil => simp [insertPair]
  | cons p ps ih =>
    obtain ⟨k0, v0⟩ := p
    simp only [List.map_cons, List.mem_cons] at h
    push_neg at h
    simp [insertPair, Ne.symm h.1, ih h.2]

theorem keys_insertPair (ps : List (String × JsonValue)) (k : String) (v : JsonValue) :
    (insertPair ps k v).map Prod.fst
      = if k ∈ ps.map Prod.fst then ps.map Prod.fst else ps.map Prod.fst ++ [k] := by
  induction ps with
  | nil => simp [insertPair]
  | cons p ps ih =>
    obtain ⟨k0, v0⟩ := p
    by_cases h : k0 = k
    · subst h; simp [insertPair]
    · simp only [insertPair, if_neg h, List.map_cons, ih]
      by_cases hm : k ∈ ps.map Prod.fst
      · simp [hm, Ne.symm h]
      · simp [hm, Ne.symm h]

theorem nodup_keys_insertPair {ps : List (String × JsonValue)} (k : String) (v : JsonValue)
    (h : (ps.map Prod.fst).Nodup) : ((insertPair ps k v).map Prod.fst).Nodup := by
  rw [keys_insertPair]
  by_cases hm : k ∈ ps.map Prod.fst
  · simpa [hm] using h
  · simp only [if_neg hm]
    exact List.Nodup.append h (List.nodup_singleton k) (by simpa using hm)

/-! ### Decimal digits -/

theorem natDigitsAux_eq_digits : ∀ f n, n ≤ f → natDigitsAux f n = Nat.digits 10 n := by
  intro f
  induction f with
  | zero => intro n hn; interval_cases n; simp [natDigitsAux]
  | succ f ih =>
    intro n hn
    match n with
    | 0 => simp [natDigitsAux]
    | m + 1 =>
      have hdiv : (m + 1) / 10 ≤ f := by
        have := Nat.div_lt_self (Nat.succ_pos m) (by norm_num : (1 : Nat) < 10)
        omega
      rw [natDigitsAux, Nat.digits_def' (by norm_num : 1 < 10) (Nat.succ_pos m), ih _ hdiv]
      omega

theorem digitVal_ofNat {d : Nat} (h : d < 10) : digitVal (Char.ofNat (48 + d)) = d := by
  interval_cases d <;> rfl

theorem isDigit_ofNat {d : Nat} (h : d < 10) : (Char.ofNat (48 + d)).isDigit = true := by
  interval_cases d <;> rfl

theorem foldl_digit_chars (L : List Nat) (h : ∀ d ∈ L, d < 10) : ∀ acc : Nat,
    (L.reverse.map (fun d => Char.ofNat (48 + d))).foldl (fun a c => 10 * a + digitVal c) acc
      = acc * 10 ^ L.length + Nat.ofDigits 10 L := by
  induction L with
  | nil => intro acc; simp
  | cons d L ih =>
    intro acc
    simp only [List.reverse_cons, List.map_append, List.map_cons, List.map_nil,
      List.foldl_append, List.foldl_cons, List.foldl_nil]
    rw [ih (fun x hx => h x (List.mem_cons_of_mem _ hx)) acc,
      digitVal_ofNat (h d (List.mem_cons_self _ _)), Nat.ofDigits_cons]
    simp only [List.length_cons, pow_succ]
    ring

theorem natFromDigits_natToChars (n : Nat) : natFromDigits (natToChars n) = n := by
  by_cases h : n = 0
  · subst h; rfl
  · unfold natToChars
    rw [if_neg h, natDigitsAux_eq_digits n n le_rfl]
    unfold natFromDigits
    rw [foldl_digit_chars _ (fun d hd => Nat.digits_lt_base (by norm_num) hd) 0]
    simp [Nat.ofDigits_digits]

theorem natToChars_ne_nil (n : Nat) : natToChars n ≠ [] := by
  by_cases h : n = 0
  · subst h; simp [natToChars]
  · unfold natToChars
    rw [if_neg h, natDigitsAux_eq_digits n n le_rfl]
    simp [Nat.digits_ne_nil_iff_ne_zero, h]

theorem natToChars_mem_isDigit (n : Nat) : ∀ c ∈ natToChars n, c.isDigit = true := by
  by_cases h : n = 0
  · subst h; intro c hc; simp [natToChars] at hc; subst hc; rfl
  · unfold natToChars
    rw [if_neg h, natDigitsAux_eq_digits n n le_rfl]
    intro c hc
    simp only [List.mem_map, List.mem_reverse] at hc
    obtain ⟨d, hd, rfl⟩ := hc
    exact isDigit_ofNat (Nat.digits_lt_base (by norm_num) hd)

theorem isDigit_ne_dash {c : Char} (h : c.isDigit = true) : c ≠ '-' := by
  intro hc; subst hc; exact absurd h (by decide)

theorem isDigit_ne_plus {c : Char} (h : c.isDigit = true) : c ≠ '+' := by
  intro hc; subst hc; exact absurd h (by decide)

theorem natToChars_head_isDigit (n : Nat) :
    ∃ c cs, natToChars n = c :: cs ∧ c.isDigit = true := by
  obtain ⟨c, cs, hcs⟩ := List.exists_cons_of_ne_nil (natToChars_ne_nil n)
  exact ⟨c, cs, hcs, natToChars_mem_isDigit n c (by rw [hcs]; exact List.mem_cons_self _ _)⟩

theorem natToChars_head_ne_zero {n : Nat} (h : n ≠ 0) :
    ∃ c cs, natToChars n = c :: cs ∧ c.isDigit = true ∧ c ≠ '0' := by
  unfold natToChars
  rw [if_neg h, natDigitsAux_eq_digits n n le_rfl]
  have hne : Nat.digits 10 n ≠ [] := Nat.digits_ne_nil_iff_ne_zero.mpr h
  have hrevne : (Nat.digits 10 n).reverse ≠ [] := by simpa
  obtain ⟨d, ds, hds⟩ := List.exists_cons_of_ne_nil hrevne
  have hdmem : d ∈ Nat.digits 10 n := by
    rw [← List.mem_reverse, hds]; exact List.mem_cons_self _ _
  have hd10 : d < 10 := Nat.digits_lt_base (by norm_num) hdmem
  have hdne : d ≠ 0 := by
    have hlast : (Nat.digits 10 n).getLast? = some d := by
      rw [← List.head?_reverse, hds]; rfl
    have h2 := List.getLast?_eq_getLast (Nat.digits 10 n) hne
    rw [hlast] at h2
    have h3 : d = (Nat.digits 10 n).getLast hne := Option.some.inj h2
    rw [h3]
    exact Nat.getLast_digit_ne_zero 10 h
  refine ⟨Char.ofNat (48 + d), ds.map (fun d => Char.ofNat (48 + d)), ?_, isDigit_ofNat hd10, ?_⟩
  · rw [hds]; simp
  · have hd1 : 1 ≤ d := Nat.pos_of_ne_zero hdne
    interval_cases d <;> decide

theorem takeWhile_append_full {p : Char → Bool} (l r : List Char)
    (hl : ∀ c ∈ l, p c = true) (hr : ∀ c, r.head? = some c → p c = false) :
    (l ++ r).takeWhile p = l ∧ (l ++ r).dropWhile p = r := by
  induction l with
  | nil =>
    cases r with
    | nil => simp
    | cons c r => have := hr c rfl; simp [List.takeWhile_cons, List.dropWhile_cons, this]
  | cons c l ih =>
    have hc := hl c (List.mem_cons_self _ _)
    have := ih (fun x hx => hl x (List.mem_cons_of_mem _ hx))
    simp [List.takeWhile_cons, List.dropWhile_cons, hc, this.1, this.2]

theorem parseNatToken_natToChars (n : Nat) (rest : List Char)
    (hrest : ∀ c, rest.head? = some c → c.isDigit = false) :
    parseNatToken (natToChars n ++ rest) = some (n, rest) := by
  by_cases h : n = 0
  · subst h
    cases rest with
    | nil => rfl
    | cons c r => simp [natToChars, parseNatToken]
  · obtain ⟨c, cs, hcs, hdig, hzero⟩ := natToChars_head_ne_zero h
    have htail : ∀ x ∈ cs, x.isDigit = true := by
      intro x hx
      exact natToChars_mem_isDigit n x (by rw [hcs]; exact List.mem_cons_of_mem _ hx)
    obtain ⟨htake, hdrop⟩ := takeWhile_append_full cs rest htail hrest
    rw [hcs]
    simp only [List.cons_append, parseNatToken, if_neg hzero, hdig, if_pos rfl, htake, hdrop]
    have : natFromDigits (c :: cs) = n := by rw [← hcs]; exact natFromDigits_natToChars n
    simp [this]

theorem parseIntToken_not_dash (cs : List Char) (h : cs.head? ≠ some '-') :
    parseIntToken cs = (parseNatToken cs).map (fun p => ((p.1 : Int), p.2)) := by
  cases cs with
  | nil => rfl
  | cons c cs' =>
    rw [parseIntToken.eq_def]
    split
    · next heq => rw [List.cons.injEq] at heq; exact absurd (by simp [heq.1]) h
    · rfl

theorem parseIntToken_intToChars (n : Int) (rest : List Char)
    (hrest : ∀ c, rest.head? = some c → c.isDigit = false) :
    parseIntToken (intToChars n ++ rest) = some (n, rest) := by
  by_cases h : n < 0
  · unfold intToChars
    rw [if_pos h]
    simp only [List.cons_append, parseIntToken,
      parseNatToken_natToChars ((-n).toNat) rest hrest, Option.map_some]
    have h2 : (((-n).toNat : Int)) = -n := Int.toNat_of_nonneg (by omega)
    simp [h2]
  · unfold intToChars
    rw [if_neg h]
    obtain ⟨c, cs, hcs, hdig⟩ := natToChars_head_isDigit n.toNat
    rw [parseIntToken_not_dash _ (by rw [hcs]; simpa using isDigit_ne_dash hdig),
      parseNatToken_natToChars n.toNat rest hrest]
    simp [Int.toNat_of_nonneg (by omega : (0 : Int) ≤ n)]

theorem allDigits_of_mem {l : List Char} (h : ∀ c ∈ l, c.isDigit = true) :
    allDigits l = true := by
  induction l with
  | nil => rfl
  | cons c cs ih => simp [allDigits, h c (List.mem_cons_self _ _),
      ih (fun x hx => h x (List.mem_cons_of_mem _ hx))]

theorem pyStripList_eq_self {cs : List Char} (h : ∀ c ∈ cs, isPySpace c = false) :
    pyStripList cs = cs := by
  have hdw : ∀ l : List Char, (∀ c ∈ l, isPySpace c = false) → l.dropWhile isPySpace = l := by
    intro l hl
    cases l with
    | nil => rfl
    | cons c l => simp [List.dropWhile_cons, hl c (List.mem_cons_self _ _)]
  unfold pyStripList
  rw [hdw _ h, hdw _ (fun c hc => h c (by simpa using hc)), List.reverse_reverse]

theorem isPySpace_of_isDigit {c : Char} (h : c.isDigit = true) : isPySpace c = false := by
  have h48 : 48 ≤ c.toNat := by
    unfold Char.isDigit at h
    simp only [Bool.and_eq_true, decide_eq_true_eq] at h
    exact h.1
  unfold isPySpace
  simp only [Bool.or_eq_false_iff, decide_eq_false_iff_not]
  refine ⟨⟨⟨⟨⟨?_, ?_⟩, ?_⟩, ?_⟩, ?_⟩, ?_⟩ <;> rintro rfl <;> exact absurd h48 (by decide)

theorem isPySpace_natToChars (n : Nat) : ∀ c ∈ natToChars n, isPySpace c = false :=
  fun c hc => isPySpace_of_isDigit (natToChars_mem_isDigit n c hc)

theorem pyIntChars_intToChars (n : Int) : pyIntChars (intToChars n) = some n := by
  have hspace : ∀ c ∈ intToChars n, isPySpace c = false := by
    intro c hc
    unfold intToChars at hc
    by_cases h : n < 0
    · rw [if_pos h] at hc
      rcases List.mem_cons.mp hc with h' | h'
      · subst h'; rfl
      · exact isPySpace_natToChars _ c h'
    · rw [if_neg h] at hc; exact isPySpace_natToChars _ c hc
  unfold pyIntChars
  rw [pyStripList_eq_self hspace]
  by_cases h : n < 0
  · unfold intToChars
    rw [if_pos h]
    have hdigs := allDigits_of_mem (natToChars_mem_isDigit (-n).toNat)
    simp only [natToChars_ne_nil, hdigs, ne_eq, not_false_eq_true, and_self, if_pos,
      natFromDigits_natToChars]
    congr 1
    have : (((-n).toNat : Int)) = -n := Int.toNat_of_nonneg (by omega)
    rw [this]; ring
  · unfold intToChars
    rw [if_neg h]
    obtain ⟨c, cs, hcs, hdig⟩ := natToChars_head_isDigit n.toNat
    rw [hcs]
    have hdigs : allDigits (c :: cs) = true := by
      rw [← hcs]; exact allDigits_of_mem (natToChars_mem_isDigit n.toNat)
    have hvl : natFromDigits (c :: cs) = n.toNat := by
      rw [← hcs]; exact natFromDigits_natToChars _
    have hdash : c ≠ '-' := isDigit_ne_dash hdig
    have hplus : c ≠ '+' := isDigit_ne_plus hdig
    split
    · next ds heq =>
      rw [List.cons.injEq] at heq
      exact absurd heq.1 hdash
    · next ds heq =>
      rw [List.cons.injEq] at heq
      exact absurd heq.1 hplus
    · simp only [hdigs, ne_eq, reduceCtorEq, not_false_eq_true, and_self, if_pos, hvl,
        Int.toNat_of_nonneg (by omega : (0 : Int) ≤ n)]


/-! ### Well-formed values: every object has distinct keys (dict-shaped) -/

mutual
def jwf : JsonValue → Prop
  | .null => True
  | .bool _ => True
  | .num _ => True
  | .str _ => True
  | .arr xs => jwfL xs
  | .obj ps => (ps.map Prod.fst).Nodup ∧ jwfP ps
def jwfL : List JsonValue → Prop
  | [] => True
  | x :: xs => jwf x ∧ jwfL xs
def jwfP : List (String × JsonValue) → Prop
  | [] => True
  | (_, v) :: ps => jwf v ∧ jwfP ps
end

/-! ### Whitespace-skipping lemmas -/

theorem skipWs_not_ws {c : Char} (h : isJsonWs c = false) (cs : List Char) :
    skipWs (c :: cs) = c :: cs := by
  simp [skipWs, h]

theorem skipWs_ws_append {l : List Char} (h : ∀ c ∈ l, isJsonWs c = true) (r : List Char) :
    skipWs (l ++ r) = skipWs r := by
  induction l with
  | nil => rfl
  | cons c l ih =>
    simp only [List.cons_append, skipWs, h c (List.mem_cons_self _ _), if_pos]
    exact ih (fun x hx => h x (List.mem_cons_of_mem _ hx))

theorem spacesList_all_ws (n : Nat) : ∀ c ∈ spacesList n, isJsonWs c = true := by
  induction n with
  | zero => intro c hc; cases hc
  | succ n ih =>
    intro c hc
    rcases List.mem_cons.mp hc with h | h
    · subst h; rfl
    · exact ih c h

/-! ### Hex digit round trip -/

theorem hexVal?_hexDigitChar {m : Nat} (h : m < 16) : hexVal? (hexDigitChar m) = some m := by
  interval_cases m <;> rfl

theorem hex4?_control (t : Nat) (h : t < 32) :
    hex4? '0' '0' (hexDigitChar (t / 16)) (hexDigitChar (t % 16)) = some t := by
  have h1 : t / 16 < 16 := by omega
  have h2 : t % 16 < 16 := by omega
  unfold hex4?
  rw [show hexVal? '0' = some 0 from rfl, hexVal?_hexDigitChar h1, hexVal?_hexDigitChar h2]
  show some (0 * 4096 + 0 * 256 + t / 16 * 16 + t % 16) = some t
  rw [show 0 * 4096 + 0 * 256 + t / 16 * 16 + t % 16 = t from by
    rw [Nat.mul_comm (t / 16) 16]
    omega]

/-! ### String escaping round trip -/

theorem psb_quote (f : Nat) (cs acc : List Char) :
    parseStringBody (f + 1) ('"' :: cs) acc = some (String.mk acc.reverse, cs) := by
  simp [parseStringBody]

theorem psb_esc {cs : List Char} {d : Char} {cs2 : List Char}
    (h : escDecode cs = some (d, cs2)) (f : Nat) (acc : List Char) :
    parseStringBody (f + 1) ('\\' :: cs) acc = parseStringBody f cs2 (d :: acc) := by
  simp only [parseStringBody, h]
  rfl

theorem psb_raw {c : Char} (h1 : c ≠ '"') (h2 : c ≠ '\\') (h3 : ¬ c.toNat < 0x20)
    (f : Nat) (cs acc : List Char) :
    parseStringBody (f + 1) (c :: cs) acc = parseStringBody f cs (c :: acc) := by
  simp only [parseStringBody]
  rw [if_neg h1, if_neg h2, if_neg h3]

theorem escDecode_control {c : Char} (h8 : c.toNat < 0x20) (X : List Char) :
    escDecode ('u' :: '0' :: '0' :: hexDigitChar (c.toNat / 16)
      :: hexDigitChar (c.toNat % 16) :: X) = some (c, X) := by
  simp only [escDecode, hex4?_control c.toNat h8]
  rw [if_pos (show c.toNat < 0xd800 by omega), Char.ofNat_toNat]
  simp

theorem parseStringBody_escapeChars (l : List Char) : ∀ (f : Nat) (acc rest : List Char),
    (escapeChars l).length < f →
    parseStringBody f (escapeChars l ++ '"' :: rest) acc
      = some (String.mk (acc.reverse ++ l), rest) := by
  induction l with
  | nil =>
    intro f acc rest hf
    match f, hf with
    | f + 1, _ =>
      show parseStringBody (f + 1) ('"' :: rest) acc = _
      rw [psb_quote]
      simp
  | cons c l ih =>
    intro f acc rest hf
    have hlen : 1 ≤ (escChar c).length := by
      unfold escChar
      repeat' split
      all_goals simp
    have hf' : (escapeChars l).length < f - 1 := by
      have : (escapeChars (c :: l)).length = (escChar c).length + (escapeChars l).length := by
        show (escChar c ++ escapeChars l).length = _
        simp
      omega
    obtain ⟨f', rfl⟩ : ∃ f', f = f' + 1 := ⟨f - 1, by omega⟩
    show parseStringBody (f' + 1) ((escChar c ++ escapeChars l) ++ '"' :: rest) acc = _
    rw [List.append_assoc]
    by_cases h1 : c = '"'
    · subst h1
      rw [show escChar '"' = ['\\', '"'] from rfl]
      show parseStringBody (f' + 1) ('\\' :: '"' :: (escapeChars l ++ '"' :: rest)) acc = _
      rw [psb_esc (show escDecode ('"' :: (escapeChars l ++ '"' :: rest))
          = some ('"', escapeChars l ++ '"' :: rest) from rfl),
        ih f' _ rest (by omega)]
      simp
    · by_cases h2 : c = '\\'
      · subst h2
        rw [show escChar '\\' = ['\\', '\\'] from rfl]
        show parseStringBody (f' + 1) ('\\' :: '\\' :: (escapeChars l ++ '"' :: rest)) acc = _
        rw [psb_esc (show escDecode ('\\' :: (escapeChars l ++ '"' :: rest))
            = some ('\\', escapeChars l ++ '"' :: rest) from rfl),
          ih f' _ rest (by omega)]
        simp
      · by_cases h3 : c = Char.ofNat 8
        · subst h3
          rw [show escChar (Char.ofNat 8) = ['\\', 'b'] from rfl]
          show parseStringBody (f' + 1) ('\\' :: 'b' :: (escapeChars l ++ '"' :: rest)) acc = _
          rw [psb_esc (show escDecode ('b' :: (escapeChars l ++ '"' :: rest))
              = some (Char.ofNat 8, escapeChars l ++ '"' :: rest) from rfl),
            ih f' _ rest (by omega)]
          simp
        · by_cases h4 : c = '\t'
          · subst h4
            rw [show escChar '\t' = ['\\', 't'] from rfl]
            show parseStringBody (f' + 1) ('\\' :: 't' :: (escapeChars l ++ '"' :: rest)) acc = _
            rw [psb_esc (show escDecode ('t' :: (escapeChars l ++ '"' :: rest))
                = some ('\t', escapeChars l ++ '"' :: rest) from rfl),
              ih f' _ rest (by omega)]
            simp
          · by_cases h5 : c = '\n'
            · subst h5
              rw [show escChar '\n' = ['\\', 'n'] from rfl]
              show parseStringBody (f' + 1) ('\\' :: 'n' :: (escapeChars l ++ '"' :: rest)) acc
                = _
              rw [psb_esc (show escDecode ('n' :: (escapeChars l ++ '"' :: rest))
                  = some ('\n', escapeChars l ++ '"' :: rest) from rfl),
                ih f' _ rest (by omega)]
              simp
            · by_cases h6 : c = Char.ofNat 12
              · subst h6
                rw [show escChar (Char.ofNat 12) = ['\\', 'f'] from rfl]
                show parseStringBody (f' + 1) ('\\' :: 'f' :: (escapeChars l ++ '"' :: rest)) acc
                  = _
                rw [psb_esc (show escDecode ('f' :: (escapeChars l ++ '"' :: rest))
                    = some (Char.ofNat 12, escapeChars l ++ '"' :: rest) from rfl),
                  ih f' _ rest (by omega)]
                simp
              · by_cases h7 : c = '\r'
                · subst h7
                  rw [show escChar '\r' = ['\\', 'r'] from rfl]
                  show parseStringBody (f' + 1)
                    ('\\' :: 'r' :: (escapeChars l ++ '"' :: rest)) acc = _
                  rw [psb_esc (show escDecode ('r' :: (escapeChars l ++ '"' :: rest))
                      = some ('\r', escapeChars l ++ '"' :: rest) from rfl),
                    ih f' _ rest (by omega)]
                  simp
                · by_cases h8 : c.toNat < 0x20
                  · have hesc : escChar c
                        = ['\\', 'u', '0', '0', hexDigitChar (c.toNat / 16),
                           hexDigitChar (c.toNat % 16)] := by
                      unfold escChar
                      rw [if_neg h1, if_neg h2, if_neg h3, if_neg h4, if_neg h5, if_neg h6,
                        if_neg h7, if_pos h8]
                    rw [hesc]
                    show parseStringBody (f' + 1) ('\\' :: 'u' :: '0' :: '0'
                        :: hexDigitChar (c.toNat / 16) :: hexDigitChar (c.toNat % 16)
                        :: (escapeChars l ++ '"' :: rest)) acc = _
                    rw [psb_esc (escDecode_control h8 _), ih f' _ rest (by omega)]
                    simp
                  · have hesc : escChar c = [c] := by
                      unfold escChar
                      rw [if_neg h1, if_neg h2, if_neg h3, if_neg h4, if_neg h5, if_neg h6,
                        if_neg h7, if_neg h8]
                    rw [hesc]
                    show parseStringBody (f' + 1) (c :: (escapeChars l ++ '"' :: rest)) acc = _
                    rw [psb_raw h1 h2 h8, ih f' _ rest (by omega)]
                    simp

theorem string_eta (s : String) : String.mk s.data = s := rfl

theorem parseStringBody_encode (s : String) (f : Nat) (rest : List Char)
    (hf : (escapeChars s.data).length < f) :
    parseStringBody f (escapeChars s.data ++ '"' :: rest) [] = some (s, rest) := by
  rw [parseStringBody_escapeChars _ _ _ _ hf]
  simp [string_eta]



/-! ### One-step evaluation lemmas for the value parser -/

theorem parseValue_lbrace (f : Nat) (rest : List Char) :
    parseValue (f + 1) (lbrace :: rest)
      = match skipWs rest with
        | c2 :: rest2 =>
          if c2 = rbrace then some (.obj [], rest2) else parseMembers f (c2 :: rest2) []
        | [] => none := by
  simp only [parseValue, if_true]

theorem parseValue_lbrack (f : Nat) (rest : List Char) :
    parseValue (f + 1) ('[' :: rest)
      = match skipWs rest with
        | c2 :: rest2 =>
          if c2 = ']' then some (.arr [], rest2) else parseElems f (c2 :: rest2) []
        | [] => none := by
  simp only [parseValue, if_true]
  rw [if_neg (by decide : ¬ ('[' : Char) = lbrace)]

theorem parseValue_quote (f : Nat) (rest : List Char) :
    parseValue (f + 1) ('"' :: rest)
      = match parseStringBody (rest.length + 1) rest [] with
        | some (s, rest2) => some (.str s, rest2)
        | none => none := by
  simp only [parseValue, if_true]
  rw [if_neg (by decide : ¬ ('"' : Char) = lbrace), if_neg (by decide : ¬ ('"' : Char) = '[')]

theorem parseValue_tchar (f : Nat) (rest : List Char) :
    parseValue (f + 1) ('t' :: rest)
      = if rest.take 3 = ['r', 'u', 'e'] then some (.bool true, rest.drop 3) else none := by
  simp only [parseValue, if_true]
  rw [if_neg (by decide : ¬ ('t' : Char) = lbrace), if_neg (by decide : ¬ ('t' : Char) = '['),
    if_neg (by decide : ¬ ('t' : Char) = '"')]

theorem parseValue_fchar (f : Nat) (rest : List Char) :
    parseValue (f + 1) ('f' :: rest)
      = if rest.take 4 = ['a', 'l', 's', 'e'] then some (.bool false, rest.drop 4) else none := by
  simp only [parseValue, if_true]
  rw [if_neg (by decide : ¬ ('f' : Char) = lbrace), if_neg (by decide : ¬ ('f' : Char) = '['),
    if_neg (by decide : ¬ ('f' : Char) = '"'), if_neg (by decide : ¬ ('f' : Char) = 't')]

theorem parseValue_nchar (f : Nat) (rest : List Char) :
    parseValue (f + 1) ('n' :: rest)
      = if rest.take 3 = ['u', 'l', 'l'] then some (.null, rest.drop 3) else none := by
  simp only [parseValue, if_true]
  rw [if_neg (by decide : ¬ ('n' : Char) = lbrace), if_neg (by decide : ¬ ('n' : Char) = '['),
    if_neg (by decide : ¬ ('n' : Char) = '"'), if_neg (by decide : ¬ ('n' : Char) = 't'),
    if_neg (by decide : ¬ ('n' : Char) = 'f')]

theorem parseValue_other (f : Nat) (c : Char) (rest : List Char)
    (h1 : c ≠ lbrace) (h2 : c ≠ '[') (h3 : c ≠ '"') (h4 : c ≠ 't') (h5 : c ≠ 'f')
    (h6 : c ≠ 'n') :
    parseValue (f + 1) (c :: rest)
      = (parseIntToken (c :: rest)).map (fun p => (.num p.1, p.2)) := by
  simp only [parseValue]
  rw [if_neg h1, if_neg h2, if_neg h3, if_neg h4, if_neg h5, if_neg h6]

/-! ### Head characters of the serializer output -/

theorem isDigit_facts {c : Char} (h : c.isDigit = true) :
    isJsonWs c = false ∧ c ≠ ']' ∧ c ≠ rbrace ∧ c ≠ lbrace ∧ c ≠ '[' ∧ c ≠ '"'
      ∧ c ≠ 't' ∧ c ≠ 'f' ∧ c ≠ 'n' := by
  have h' : 48 ≤ c.toNat ∧ c.toNat ≤ 57 := by
    unfold Char.isDigit at h
    simp only [Bool.and_eq_true, decide_eq_true_eq] at h
    exact h
  refine ⟨?_, ?_, ?_, ?_, ?_, ?_, ?_, ?_, ?_⟩
  · unfold isJsonWs
    simp only [Bool.or_eq_false_iff, decide_eq_false_iff_not]
    refine ⟨⟨⟨?_, ?_⟩, ?_⟩, ?_⟩ <;> rintro rfl <;> exact absurd h (by decide)
  all_goals (rintro rfl; exact absurd h (by decide))

theorem intToChars_head (n : Int) :
    ∃ c cs, intToChars n = c :: cs ∧ (c = '-' ∨ c.isDigit = true) := by
  by_cases h : n < 0
  · exact ⟨'-', _, by rw [intToChars, if_pos h], Or.inl rfl⟩
  · obtain ⟨c, cs, hcs, hd⟩ := natToChars_head_isDigit n.toNat
    exact ⟨c, cs, by rw [intToChars, if_neg h, hcs], Or.inr hd⟩

theorem dumpsI_head (ind : Nat) (v : JsonValue) :
    ∃ c cs', dumpsI ind v = c :: cs' ∧ isJsonWs c = false ∧ c ≠ ']' ∧ c ≠ rbrace := by
  have hd : ∀ c : Char, c ∈ (['n', 't', 'f', '"', '[', lbrace] : List Char) →
      isJsonWs c = false ∧ c ≠ ']' ∧ c ≠ rbrace := by decide
  cases v with
  | null => exact ⟨'n', _, rfl, hd 'n' (by decide)⟩
  | bool b =>
    cases b with
    | true => exact ⟨'t', _, rfl, hd 't' (by decide)⟩
    | false => exact ⟨'f', _, rfl, hd 'f' (by decide)⟩
  | num n =>
    obtain ⟨c, cs, hcs, hc⟩ := intToChars_head n
    refine ⟨c, cs, by rw [show dumpsI ind (.num n) = intToChars n from rfl, hcs], ?_, ?_, ?_⟩
    · rcases hc with h | h
      · subst h; decide
      · exact (isDigit_facts h).1
    · rcases hc with h | h
      · subst h; decide
      · exact (isDigit_facts h).2.1
    · rcases hc with h | h
      · subst h; decide
      · exact (isDigit_facts h).2.2.1
  | str s =>
    refine ⟨'"', escapeChars s.data ++ ['"'], ?_, hd '"' (by decide)⟩
    rw [show dumpsI ind (.str s) = encodeStringList s from rfl]
    rfl
  | arr xs =>
    cases xs with
    | nil => exact ⟨'[', _, rfl, hd '[' (by decide)⟩
    | cons x xs =>
      refine ⟨'[', '\n' :: spacesList (ind + 2) ++ dumpsI (ind + 2) x ++ dumpsIElems ind xs
        ++ '\n' :: spacesList ind ++ [']'], ?_, hd '[' (by decide)⟩
      rw [dumpsI]
      simp
  | obj ps =>
    cases ps with
    | nil => exact ⟨lbrace, _, rfl, hd lbrace (by decide)⟩
    | cons p ps =>
      refine ⟨lbrace, '\n' :: spacesList (ind + 2) ++ dumpsIPair ind p ++ dumpsIMembers ind ps
        ++ '\n' :: spacesList ind ++ [rbrace], ?_, hd lbrace (by decide)⟩
      rw [dumpsI]
      simp

theorem dumpsI_ne_nil (ind : Nat) (v : JsonValue) : dumpsI ind v ≠ [] := by
  obtain ⟨c, cs', h, _⟩ := dumpsI_head ind v
  rw [h]
  exact List.cons_ne_nil c cs'

theorem skipWs_dumpsI (ind : Nat) (v : JsonValue) (rest : List Char) :
    skipWs (dumpsI ind v ++ rest) = dumpsI ind v ++ rest := by
  obtain ⟨c, cs', h, hws, _, _⟩ := dumpsI_head ind v
  rw [h, List.cons_append, skipWs_not_ws hws]

/-! ### Round trip: parsing the indent-2 serialization returns the value -/

/-- A rest that cannot extend a numeric token. -/
def nonDigitHead (rest : List Char) : Prop :=
  ∀ c, rest.head? = some c → c.isDigit = false

/-- Round-trip property of one value at every indentation and ample fuel. -/
def RTv (v : JsonValue) : Prop :=
  ∀ (ind f : Nat) (rest : List Char), nonDigitHead rest → (dumpsI ind v).length < f →
    parseValue f (dumpsI ind v ++ rest) = some (v, rest)

theorem spacesList_length (n : Nat) : (spacesList n).length = n := by
  induction n with
  | zero => rfl
  | succ n ih => simp [spacesList, ih]

theorem skipWs_close {c : Char} (hc : isJsonWs c = false) (ind : Nat) (rest : List Char) :
    skipWs ('\n' :: (spacesList ind ++ c :: rest)) = c :: rest := by
  show skipWs (('\n' :: spacesList ind) ++ c :: rest) = c :: rest
  rw [skipWs_ws_append, skipWs_not_ws hc]
  intro x hx
  rcases List.mem_cons.mp hx with h | h
  · subst h; rfl
  · exact spacesList_all_ws ind x h

theorem skipWs_elem (ind ind' : Nat) (v : JsonValue) (tail : List Char) :
    skipWs ('\n' :: (spacesList ind ++ (dumpsI ind' v ++ tail))) = dumpsI ind' v ++ tail := by
  show skipWs (('\n' :: spacesList ind) ++ (dumpsI ind' v ++ tail)) = _
  rw [skipWs_ws_append, skipWs_dumpsI]
  intro x hx
  rcases List.mem_cons.mp hx with h | h
  · subst h; rfl
  · exact spacesList_all_ws ind x h

theorem jsize_pos (v : JsonValue) : 0 < jsize v := by
  cases v <;> simp [jsize]

theorem jsizeL_mem {x : JsonValue} {xs : List JsonValue} (h : x ∈ xs) :
    jsize x < 1 + jsizeL xs := by
  induction xs with
  | nil => cases h
  | cons y ys ih =>
    rcases List.mem_cons.mp h with h | h
    · subst h; simp [jsizeL]; omega
    · have := ih h; simp [jsizeL] at *; omega

theorem jsizeP_mem {p : String × JsonValue} {ps : List (String × JsonValue)} (h : p ∈ ps) :
    jsize p.2 < 1 + jsizeP ps := by
  induction ps with
  | nil => cases h
  | cons q qs ih =>
    rcases List.mem_cons.mp h with h | h
    · subst h
      obtain ⟨k, v⟩ := p
      simp [jsizeP]
      omega
    · have := ih h; simp [jsizeP] at *; omega

theorem jwfL_mem {x : JsonValue} {xs : List JsonValue} (hwf : jwfL xs) (h : x ∈ xs) :
    jwf x := by
  induction xs with
  | nil => cases h
  | cons y ys ih =>
    rcases List.mem_cons.mp h with h | h
    · subst h; exact hwf.1
    · exact ih hwf.2 h

theorem jwfP_mem {p : String × JsonValue} {ps : List (String × JsonValue)} (hwf : jwfP ps)
    (h : p ∈ ps) : jwf p.2 := by
  induction ps with
  | nil => cases h
  | cons q qs ih =>
    obtain ⟨k, v⟩ := q
    rcases List.mem_cons.mp h with h | h
    · subst h; exact hwf.1
    · exact ih hwf.2 h

theorem rt_null : RTv .null := by
  intro ind f rest hrest hf
  obtain ⟨f', rfl⟩ : ∃ f', f = f' + 1 := ⟨f - 1, by omega⟩
  show parseValue (f' + 1) ('n' :: 'u' :: 'l' :: 'l' :: rest) = some (.null, rest)
  rw [parseValue_nchar]
  simp

theorem rt_true : RTv (.bool true) := by
  intro ind f rest hrest hf
  obtain ⟨f', rfl⟩ : ∃ f', f = f' + 1 := ⟨f - 1, by omega⟩
  show parseValue (f' + 1) ('t' :: 'r' :: 'u' :: 'e' :: rest) = some (.bool true, rest)
  rw [parseValue_tchar]
  simp

theorem rt_false : RTv (.bool false) := by
  intro ind f rest hrest hf
  obtain ⟨f', rfl⟩ : ∃ f', f = f' + 1 := ⟨f - 1, by omega⟩
  show parseValue (f' + 1) ('f' :: 'a' :: 'l' :: 's' :: 'e' :: rest) = some (.bool false, rest)
  rw [parseValue_fchar]
  simp

theorem rt_num (n : Int) : RTv (.num n) := by
  intro ind f rest hrest hf
  obtain ⟨f', rfl⟩ : ∃ f', f = f' + 1 := ⟨f - 1, by omega⟩
  show parseValue (f' + 1) (intToChars n ++ rest) = some (.num n, rest)
  obtain ⟨c, cs, hcs, hc⟩ := intToChars_head n
  have hfacts : c ≠ lbrace ∧ c ≠ '[' ∧ c ≠ '"' ∧ c ≠ 't' ∧ c ≠ 'f' ∧ c ≠ 'n' := by
    rcases hc with h | h
    · subst h; exact ⟨by decide, by decide, by decide, by decide, by decide, by decide⟩
    · have hF := isDigit_facts h
      exact ⟨hF.2.2.2.1, hF.2.2.2.2.1, hF.2.2.2.2.2.1, hF.2.2.2.2.2.2.1,
        hF.2.2.2.2.2.2.2.1, hF.2.2.2.2.2.2.2.2⟩
  rw [hcs, List.cons_append,
    parseValue_other f' c (cs ++ rest) hfacts.1 hfacts.2.1 hfacts.2.2.1 hfacts.2.2.2.1
      hfacts.2.2.2.2.1 hfacts.2.2.2.2.2,
    ← List.cons_append, ← hcs, parseIntToken_intToChars n rest hrest]
  rfl

theorem rt_str (s : String) : RTv (.str s) := by
  intro ind f rest hrest hf
  obtain ⟨f', rfl⟩ : ∃ f', f = f' + 1 := ⟨f - 1, by omega⟩
  show parseValue (f' + 1) (('"' :: escapeChars s.data ++ ['"']) ++ rest) = some (.str s, rest)
  have hsh : ('"' :: escapeChars s.data ++ ['"']) ++ rest
      = '"' :: (escapeChars s.data ++ '"' :: rest) := by
    simp
  rw [hsh, parseValue_quote, parseStringBody_encode s _ rest
    (by simp only [List.length_append, List.length_cons]; omega)]

theorem rt_arr_nil : RTv (.arr []) := by
  intro ind f rest hrest hf
  obtain ⟨f', rfl⟩ : ∃ f', f = f' + 1 := ⟨f - 1, by omega⟩
  show parseValue (f' + 1) ('[' :: ']' :: rest) = some (.arr [], rest)
  rw [parseValue_lbrack, skipWs_not_ws (by decide)]
  simp

theorem rt_obj_nil : RTv (.obj []) := by
  intro ind f rest hrest hf
  obtain ⟨f', rfl⟩ : ∃ f', f = f' + 1 := ⟨f - 1, by omega⟩
  show parseValue (f' + 1) (lbrace :: rbrace :: rest) = some (.obj [], rest)
  rw [parseValue_lbrace, skipWs_not_ws (by decide)]
  simp

theorem skipWs_cons_ws {c : Char} (h : isJsonWs c = true) (X : List Char) :
    skipWs (c :: X) = skipWs X := by
  simp [skipWs, h]

theorem nonDigitHead_cons {c : Char} (h : c.isDigit = false) (l : List Char) :
    nonDigitHead (c :: l) := by
  intro x hx
  simp only [List.head?_cons, Option.some.injEq] at hx
  subst hx
  exact h

theorem rt_elems (ind : Nat) (xs : List JsonValue) :
    ∀ (x : JsonValue), RTv x → (∀ y ∈ xs, RTv y) →
    ∀ (acc : List JsonValue) (f : Nat) (rest : List Char), nonDigitHead rest →
    (dumpsI (ind + 2) x).length + (dumpsIElems ind xs).length + 1 < f →
    parseElems f
        (dumpsI (ind + 2) x ++ (dumpsIElems ind xs ++ ('\n' :: (spacesList ind ++ ']' :: rest))))
        acc
      = some (.arr (acc.reverse ++ x :: xs), rest) := by
  induction xs with
  | nil =>
    intro x hx _ acc f rest hrest hf
    obtain ⟨f', rfl⟩ : ∃ f', f = f' + 1 := ⟨f - 1, by omega⟩
    have hin : dumpsI (ind + 2) x
          ++ (dumpsIElems ind [] ++ ('\n' :: (spacesList ind ++ ']' :: rest)))
        = dumpsI (ind + 2) x ++ ('\n' :: (spacesList ind ++ ']' :: rest)) := by
      simp [dumpsIElems]
    rw [hin]
    simp only [parseElems]
    rw [hx (ind + 2) f' _ (nonDigitHead_cons (by decide) _)
      (by have h0 : (dumpsIElems ind ([] : List JsonValue)).length = 0 := rfl; omega)]
    dsimp only
    rw [show (match skipWs ('\n' :: (spacesList ind ++ ']' :: rest)) with
        | c2 :: r2 =>
          if c2 = ']' then some (JsonValue.arr (x :: acc).reverse, r2)
          else if c2 = ',' then parseElems f' (skipWs r2) (x :: acc) else none
        | [] => none)
      = some (JsonValue.arr (x :: acc).reverse, rest) from by
        rw [skipWs_close (by decide) ind rest]
        simp]
    simp

  | cons x2 xs' ih =>
    intro x hx hmem acc f rest hrest hf
    obtain ⟨f', rfl⟩ : ∃ f', f = f' + 1 := ⟨f - 1, by omega⟩
    have hlen : (dumpsIElems ind (x2 :: xs')).length
        = 2 + (ind + 2) + (dumpsI (ind + 2) x2).length + (dumpsIElems ind xs').length := by
      simp [dumpsIElems, spacesList_length]
      omega
    have hin : dumpsI (ind + 2) x
          ++ (dumpsIElems ind (x2 :: xs') ++ ('\n' :: (spacesList ind ++ ']' :: rest)))
        = dumpsI (ind + 2) x ++ (',' :: ('\n' :: (spacesList (ind + 2)
            ++ (dumpsI (ind + 2) x2
              ++ (dumpsIElems ind xs' ++ ('\n' :: (spacesList ind ++ ']' :: rest))))))) := by
      simp [dumpsIElems]
    rw [hin]
    simp only [parseElems]
    rw [hx (ind + 2) f' _ (nonDigitHead_cons (by decide) _) (by omega)]
    dsimp only
    rw [show (match skipWs (',' :: ('\n' :: (spacesList (ind + 2)
          ++ (dumpsI (ind + 2) x2
            ++ (dumpsIElems ind xs' ++ ('\n' :: (spacesList ind ++ ']' :: rest))))))) with
        | c2 :: r2 =>
          if c2 = ']' then some (JsonValue.arr (x :: acc).reverse, r2)
          else if c2 = ',' then parseElems f' (skipWs r2) (x :: acc) else none
        | [] => none)
      = parseElems f' (dumpsI (ind + 2) x2
          ++ (dumpsIElems ind xs' ++ ('\n' :: (spacesList ind ++ ']' :: rest)))) (x :: acc)
      from by
        rw [skipWs_not_ws (by decide)]
        dsimp only
        rw [if_neg (by decide : ¬ (',' : Char) = ']'), if_pos rfl, skipWs_elem]]
    rw [ih x2 (hmem x2 (List.mem_cons_self _ _))
      (fun y hy => hmem y (List.mem_cons_of_mem _ hy)) (x :: acc) f' rest hrest (by omega)]
    simp

theorem rt_members (ind : Nat) (ps : List (String × JsonValue)) :
    ∀ (k : String) (v : JsonValue), RTv v → (∀ p ∈ ps, RTv p.2) →
    ∀ (acc : List (String × JsonValue)) (f : Nat) (rest : List Char), nonDigitHead rest →
    ((acc ++ (k, v) :: ps).map Prod.fst).Nodup →
    (dumpsIPair ind (k, v)).length + (dumpsIMembers ind ps).length + 1 < f →
    parseMembers f
        ('"' :: (escapeChars k.data ++ ('"' :: (':' :: (' ' :: (dumpsI (ind + 2) v
          ++ (dumpsIMembers ind ps ++ ('\n' :: (spacesList ind ++ rbrace :: rest)))))))))
        acc
      = some (.obj (acc ++ (k, v) :: ps), rest) := by
  induction ps with
  | nil =>
    intro k v hv _ acc f rest hrest hnd hf
    obtain ⟨f', rfl⟩ : ∃ f', f = f' + 1 := ⟨f - 1, by omega⟩
    have hplen : (dumpsIPair ind (k, v)).length
        = (escapeChars k.data).length + 4 + (dumpsI (ind + 2) v).length := by
      simp [dumpsIPair, encodeStringList]
      omega
    have hk : k ∉ acc.map Prod.fst := by
      have hnd2 : (acc.map Prod.fst ++ (k :: [])).Nodup := by simpa using hnd
      intro hmem2
      exact ((List.nodup_append.mp hnd2).2.2) hmem2 (by simp)
    have hin : dumpsIMembers ind ([] : List (String × JsonValue))
        ++ ('\n' :: (spacesList ind ++ rbrace :: rest))
        = '\n' :: (spacesList ind ++ rbrace :: rest) := by
      simp [dumpsIMembers]
    rw [hin]
    have hps := parseStringBody_encode k
      ((escapeChars k.data ++ ('"' :: (':' :: (' ' :: (dumpsI (ind + 2) v
        ++ ('\n' :: (spacesList ind ++ rbrace :: rest))))))).length + 1)
      (':' :: (' ' :: (dumpsI (ind + 2) v ++ ('\n' :: (spacesList ind ++ rbrace :: rest)))))
      (by simp only [List.length_append, List.length_cons]; omega)
    have hsw1 : skipWs (':' :: (' ' :: (dumpsI (ind + 2) v
          ++ ('\n' :: (spacesList ind ++ rbrace :: rest)))))
        = ':' :: (' ' :: (dumpsI (ind + 2) v ++ ('\n' :: (spacesList ind ++ rbrace :: rest)))) :=
      skipWs_not_ws (by decide) _
    have hsw2 : skipWs (' ' :: (dumpsI (ind + 2) v
          ++ ('\n' :: (spacesList ind ++ rbrace :: rest))))
        = dumpsI (ind + 2) v ++ ('\n' :: (spacesList ind ++ rbrace :: rest)) := by
      rw [skipWs_cons_ws (by decide), skipWs_dumpsI]
    have hv' := hv (ind + 2) f'
      ('\n' :: (spacesList ind ++ rbrace :: rest)) (nonDigitHead_cons (by decide) _) (by omega)
    have hsw3 : skipWs ('\n' :: (spacesList ind ++ rbrace :: rest)) = rbrace :: rest :=
      skipWs_close (by decide) ind rest
    have hip : insertPair acc k v = acc ++ [(k, v)] := insertPair_of_notMem acc k v hk
    simp only [parseMembers, if_true]
    simp only [hps]
    simp only [hsw1]
    simp only [hsw2, hv']
    simp only [hsw3, if_true]
    simp only [hip]
  | cons p2 ps' ih =>
    intro k v hv hmem acc f rest hrest hnd hf
    obtain ⟨k2, v2⟩ := p2
    obtain ⟨f', rfl⟩ : ∃ f', f = f' + 1 := ⟨f - 1, by omega⟩
    have hplen : (dumpsIPair ind (k, v)).length
        = (escapeChars k.data).length + 4 + (dumpsI (ind + 2) v).length := by
      simp [dumpsIPair, encodeStringList]
      omega
    have hmlen : (dumpsIMembers ind ((k2, v2) :: ps')).length
        = 2 + (ind + 2) + (dumpsIPair ind (k2, v2)).length
          + (dumpsIMembers ind ps').length := by
      simp [dumpsIMembers, spacesList_length]
      omega
    have hk : k ∉ acc.map Prod.fst := by
      have hnd2 : (acc.map Prod.fst ++ (k :: ((k2, v2) :: ps').map Prod.fst)).Nodup := by
        simpa using hnd
      intro hmem2
      exact ((List.nodup_append.mp hnd2).2.2) hmem2 (by simp)
    have hin : dumpsIMembers ind ((k2, v2) :: ps')
        ++ ('\n' :: (spacesList ind ++ rbrace :: rest))
        = ',' :: ('\n' :: (spacesList (ind + 2) ++ (dumpsIPair ind (k2, v2)
            ++ (dumpsIMembers ind ps' ++ ('\n' :: (spacesList ind ++ rbrace :: rest)))))) := by
      simp [dumpsIMembers]
    rw [hin]
    have hps := parseStringBody_encode k
      ((escapeChars k.data ++ ('"' :: (':' :: (' ' :: (dumpsI (ind + 2) v
        ++ (',' :: ('\n' :: (spacesList (ind + 2) ++ (dumpsIPair ind (k2, v2)
          ++ (dumpsIMembers ind ps'
            ++ ('\n' :: (spacesList ind ++ rbrace :: rest)))))))))))).length + 1)
      (':' :: (' ' :: (dumpsI (ind + 2) v
        ++ (',' :: ('\n' :: (spacesList (ind + 2) ++ (dumpsIPair ind (k2, v2)
          ++ (dumpsIMembers ind ps' ++ ('\n' :: (spacesList ind ++ rbrace :: rest))))))))))
      (by simp only [List.length_append, List.length_cons]; omega)
    have hsw1 := skipWs_not_ws (show isJsonWs ':' = false by decide)
      (' ' :: (dumpsI (ind + 2) v
        ++ (',' :: ('\n' :: (spacesList (ind + 2) ++ (dumpsIPair ind (k2, v2)
          ++ (dumpsIMembers ind ps' ++ ('\n' :: (spacesList ind ++ rbrace :: rest)))))))))
    have hsw2 : skipWs (' ' :: (dumpsI (ind + 2) v
          ++ (',' :: ('\n' :: (spacesList (ind + 2) ++ (dumpsIPair ind (k2, v2)
            ++ (dumpsIMembers ind ps' ++ ('\n' :: (spacesList ind ++ rbrace :: rest)))))))))
        = dumpsI (ind + 2) v
          ++ (',' :: ('\n' :: (spacesList (ind + 2) ++ (dumpsIPair ind (k2, v2)
            ++ (dumpsIMembers ind ps' ++ ('\n' :: (spacesList ind ++ rbrace :: rest))))))) := by
      rw [skipWs_cons_ws (by decide), skipWs_dumpsI]
    have hv' := hv (ind + 2) f'
      (',' :: ('\n' :: (spacesList (ind + 2) ++ (dumpsIPair ind (k2, v2)
        ++ (dumpsIMembers ind ps' ++ ('\n' :: (spacesList ind ++ rbrace :: rest)))))))
      (nonDigitHead_cons (by decide) _) (by omega)
    have hsw3 := skipWs_not_ws (show isJsonWs ',' = false by decide)
      ('\n' :: (spacesList (ind + 2) ++ (dumpsIPair ind (k2, v2)
        ++ (dumpsIMembers ind ps' ++ ('\n' :: (spacesList ind ++ rbrace :: rest))))))
    have hcomma1 : (((',' : Char) = rbrace)) = False := by
      simp only [eq_iff_iff, iff_false]
      decide
    have hpairhead : dumpsIPair ind (k2, v2)
        = '"' :: (escapeChars k2.data ++ ('"' :: (':' :: (' ' :: dumpsI (ind + 2) v2)))) := by
      simp [dumpsIPair, encodeStringList]
    have hsw4 : skipWs ('\n' :: (spacesList (ind + 2) ++ (dumpsIPair ind (k2, v2)
          ++ (dumpsIMembers ind ps' ++ ('\n' :: (spacesList ind ++ rbrace :: rest))))))
        = dumpsIPair ind (k2, v2)
          ++ (dumpsIMembers ind ps' ++ ('\n' :: (spacesList ind ++ rbrace :: rest))) := by
      rw [hpairhead, List.cons_append, skipWs_close (by decide), ← List.cons_append,
        ← hpairhead]
    have hip : insertPair acc k v = acc ++ [(k, v)] := insertPair_of_notMem acc k v hk
    have hsh : dumpsIPair ind (k2, v2)
          ++ (dumpsIMembers ind ps' ++ ('\n' :: (spacesList ind ++ rbrace :: rest)))
        = '"' :: (escapeChars k2.data ++ ('"' :: (':' :: (' ' :: (dumpsI (ind + 2) v2
            ++ (dumpsIMembers ind ps'
              ++ ('\n' :: (spacesList ind ++ rbrace :: rest)))))))) := by
      simp [dumpsIPair, encodeStringList]
    have hih := ih k2 v2 (hmem (k2, v2) (List.mem_cons_self _ _))
      (fun p hp => hmem p (List.mem_cons_of_mem _ hp)) (acc ++ [(k, v)]) f' rest hrest
      (by simpa using hnd) (by omega)
    simp only [parseMembers, if_true]
    simp only [hps]
    simp only [hsw1]
    simp only [hsw2, hv']
    simp only [hsw3, hcomma1, if_false, if_true]
    simp only [hsw4, hip]
    rw [hsh, hih]
    simp

theorem rt_val : ∀ (N : Nat) (v : JsonValue), jsize v ≤ N → jwf v → RTv v := by
  intro N
  induction N with
  | zero =>
    intro v hsz _
    have := jsize_pos v
    omega
  | succ N ih =>
    intro v hsz hwf
    cases v with
    | null => exact rt_null
    | bool b =>
      cases b with
      | true => exact rt_true
      | false => exact rt_false
    | num n => exact rt_num n
    | str s => exact rt_str s
    | arr xs =>
      cases xs with
      | nil => exact rt_arr_nil
      | cons x xs' =>
        intro ind f rest hrest hf
        obtain ⟨f', rfl⟩ : ∃ f', f = f' + 1 := ⟨f - 1, by omega⟩
        have hwfl : jwfL (x :: xs') := hwf
        have hszl : 1 + jsizeL (x :: xs') ≤ N + 1 := hsz
        have hRT : ∀ y ∈ x :: xs', RTv y := by
          intro y hy
          have h1 := jsizeL_mem hy
          exact ih y (by omega) (jwfL_mem hwfl hy)
        have hlen : (dumpsI ind (.arr (x :: xs'))).length
            = 2 + (ind + 2) + (dumpsI (ind + 2) x).length + (dumpsIElems ind xs').length
              + (1 + ind + 1) := by
          show ('[' :: '\n' :: spacesList (ind + 2) ++ dumpsI (ind + 2) x
            ++ dumpsIElems ind xs' ++ '\n' :: spacesList ind ++ [']']).length = _
          simp [spacesList_length]
          omega
        have hin : dumpsI ind (.arr (x :: xs')) ++ rest
            = '[' :: ('\n' :: (spacesList (ind + 2) ++ (dumpsI (ind + 2) x
                ++ (dumpsIElems ind xs' ++ ('\n' :: (spacesList ind ++ ']' :: rest)))))) := by
          show ('[' :: '\n' :: spacesList (ind + 2) ++ dumpsI (ind + 2) x
            ++ dumpsIElems ind xs' ++ '\n' :: spacesList ind ++ [']']) ++ rest = _
          simp
        rw [hin, parseValue_lbrack]
        rw [skipWs_elem (ind + 2) (ind + 2) x
          (dumpsIElems ind xs' ++ ('\n' :: (spacesList ind ++ ']' :: rest)))]
        obtain ⟨c, cs', hx, hws, hbr, _⟩ := dumpsI_head (ind + 2) x
        rw [hx, List.cons_append]
        dsimp only
        rw [if_neg hbr, ← List.cons_append, ← hx]
        rw [rt_elems ind xs' x (hRT x (List.mem_cons_self _ _))
          (fun y hy => hRT y (List.mem_cons_of_mem _ hy)) [] f' rest hrest (by omega)]
        simp
    | obj ps =>
      cases ps with
      | nil => exact rt_obj_nil
      | cons p ps' =>
        obtain ⟨k, v0⟩ := p
        intro ind f rest hrest hf
        obtain ⟨f', rfl⟩ : ∃ f', f = f' + 1 := ⟨f - 1, by omega⟩
        have hwfo : (((k, v0) :: ps').map Prod.fst).Nodup ∧ jwfP ((k, v0) :: ps') := hwf
        have hszo : 1 + jsizeP ((k, v0) :: ps') ≤ N + 1 := hsz
        have hRT : ∀ p ∈ (k, v0) :: ps', RTv p.2 := by
          intro p hp
          have h1 := jsizeP_mem hp
          exact ih p.2 (by omega) (jwfP_mem hwfo.2 hp)
        have hlen : (dumpsI ind (.obj ((k, v0) :: ps'))).length
            = 2 + (ind + 2) + (dumpsIPair ind (k, v0)).length
              + (dumpsIMembers ind ps').length + (1 + ind + 1) := by
          show (lbrace :: '\n' :: spacesList (ind + 2) ++ dumpsIPair ind (k, v0)
            ++ dumpsIMembers ind ps' ++ '\n' :: spacesList ind ++ [rbrace]).length = _
          simp [spacesList_length]
          omega
        have hin : dumpsI ind (.obj ((k, v0) :: ps')) ++ rest
            = lbrace :: ('\n' :: (spacesList (ind + 2) ++ (dumpsIPair ind (k, v0)
                ++ (dumpsIMembers ind ps'
                  ++ ('\n' :: (spacesList ind ++ rbrace :: rest)))))) := by
          show (lbrace :: '\n' :: spacesList (ind + 2) ++ dumpsIPair ind (k, v0)
            ++ dumpsIMembers ind ps' ++ '\n' :: spacesList ind ++ [rbrace]) ++ rest = _
          simp
        have hpairhead : dumpsIPair ind (k, v0)
            = '"' :: (escapeChars k.data ++ ('"' :: (':' :: (' ' :: dumpsI (ind + 2) v0)))) := by
          simp [dumpsIPair, encodeStringList]
        rw [hin, parseValue_lbrace]
        rw [show skipWs ('\n' :: (spacesList (ind + 2) ++ (dumpsIPair ind (k, v0)
              ++ (dumpsIMembers ind ps' ++ ('\n' :: (spacesList ind ++ rbrace :: rest))))))
            = dumpsIPair ind (k, v0)
              ++ (dumpsIMembers ind ps' ++ ('\n' :: (spacesList ind ++ rbrace :: rest)))
          from by
          rw [hpairhead, List.cons_append, skipWs_close (by decide), ← List.cons_append,
            ← hpairhead]]
        rw [hpairhead, List.cons_append]
        dsimp only
        rw [if_neg (by decide : ¬ ('"' : Char) = rbrace)]
        rw [show ('"' :: ((escapeChars k.data
              ++ ('"' :: (':' :: (' ' :: dumpsI (ind + 2) v0))))
                ++ (dumpsIMembers ind ps' ++ ('\n' :: (spacesList ind ++ rbrace :: rest)))))
            = ('"' :: (escapeChars k.data ++ ('"' :: (':' :: (' ' :: (dumpsI (ind + 2) v0
                ++ (dumpsIMembers ind ps'
                  ++ ('\n' :: (spacesList ind ++ rbrace :: rest))))))))) from by simp]
        rw [rt_members ind ps' k v0 (hRT (k, v0) (List.mem_cons_self _ _))
          (fun p hp => hRT p (List.mem_cons_of_mem _ hp)) [] f' rest hrest
          (by simpa using hwfo.1) (by omega)]
        simp

theorem rtv_of_wf (v : JsonValue) (hwf : jwf v) : RTv v := rt_val (jsize v) v le_rfl hwf

theorem loads_append_newline (v : JsonValue) (hwf : jwf v) :
    loadsList (dumpsI 0 v ++ ['\n']) = some v := by
  unfold loadsList
  rw [skipWs_dumpsI,
    rtv_of_wf v hwf 0 ((dumpsI 0 v ++ ['\n']).length + 1) ['\n']
      (nonDigitHead_cons (by decide) [])
      (by simp only [List.length_append, List.length_cons, List.length_nil]; omega)]
  rfl

theorem loads_extractorOutput (v : JsonValue) (hwf : jwf v) :
    loads (extractorOutput v) = some v := by
  unfold loads extractorOutput
  exact loads_append_newline v hwf

theorem jwfL_iff (l : List JsonValue) : jwfL l ↔ ∀ x ∈ l, jwf x := by
  induction l with
  | nil => simp [jwfL]
  | cons x xs ih =>
    show jwf x ∧ jwfL xs ↔ _
    rw [ih]
    constructor
    · intro ⟨h1, h2⟩ y hy
      rcases List.mem_cons.mp hy with h | h
      · subst h; exact h1
      · exact h2 y h
    · intro h
      exact ⟨h x (List.mem_cons_self _ _), fun y hy => h y (List.mem_cons_of_mem _ hy)⟩

theorem jwfP_insertPair {ps : List (String × JsonValue)} (hps : jwfP ps) {v : JsonValue}
    (hv : jwf v) (k : String) : jwfP (insertPair ps k v) := by
  induction ps with
  | nil => exact ⟨hv, trivial⟩
  | cons p ps ih =>
    obtain ⟨k0, v0⟩ := p
    show jwfP (if k0 = k then (k, v) :: ps else (k0, v0) :: insertPair ps k v)
    by_cases h : k0 = k
    · rw [if_pos h]; exact ⟨hv, hps.2⟩
    · rw [if_neg h]; exact ⟨hps.1, ih hps.2⟩

theorem parse_wf : ∀ f : Nat,
    (∀ cs v r, parseValue f cs = some (v, r) → jwf v)
    ∧ (∀ cs acc v r, jwfP acc → (acc.map Prod.fst).Nodup →
        parseMembers f cs acc = some (v, r) → jwf v)
    ∧ (∀ cs acc v r, jwfL acc → parseElems f cs acc = some (v, r) → jwf v) := by
  intro f
  induction f with
  | zero =>
    refine ⟨?_, ?_, ?_⟩
    · intro cs v r hp; simp [parseValue] at hp
    · intro cs acc v r _ _ hp; simp [parseMembers] at hp
    · intro cs acc v r _ hp; simp [parseElems] at hp
  | succ f ih =>
    refine ⟨?_, ?_, ?_⟩
    · intro cs v r hp
      cases cs with
      | nil => simp [parseValue] at hp
      | cons c rest =>
        simp only [parseValue] at hp
        split at hp
        · split at hp
          · split at hp
            · simp only [Option.some.injEq, Prod.mk.injEq] at hp
              obtain ⟨h1, _⟩ := hp
              subst h1
              exact ⟨List.nodup_nil, trivial⟩
            · exact ih.2.1 _ [] _ _ (show jwfP [] from trivial) (by simp) hp
          · simp at hp
        · split at hp
          · split at hp
            · split at hp
              · simp only [Option.some.injEq, Prod.mk.injEq] at hp
                obtain ⟨h1, _⟩ := hp
                subst h1
                trivial
              · exact ih.2.2 _ [] _ _ (show jwfL [] from trivial) hp
            · simp at hp
          · split at hp
            · split at hp
              · simp only [Option.some.injEq, Prod.mk.injEq] at hp
                obtain ⟨h1, _⟩ := hp
                subst h1
                trivial
              · simp at hp
            · split at hp
              · split at hp
                · simp only [Option.some.injEq, Prod.mk.injEq] at hp
                  obtain ⟨h1, _⟩ := hp
                  subst h1
                  trivial
                · simp at hp
              · split at hp
                · split at hp
                  · simp only [Option.some.injEq, Prod.mk.injEq] at hp
                    obtain ⟨h1, _⟩ := hp
                    subst h1
                    trivial
                  · simp at hp
                · split at hp
                  · split at hp
                    · simp only [Option.some.injEq, Prod.mk.injEq] at hp
                      obtain ⟨h1, _⟩ := hp
                      subst h1
                      trivial
                    · simp at hp
                  · rw [Option.map_eq_some'] at hp
                    obtain ⟨p, _, hp2⟩ := hp
                    cases hp2
                    trivial
    · intro cs acc v r hacc hnd hp
      cases cs with
      | nil => simp [parseMembers] at hp
      | cons c rest =>
        simp only [parseMembers] at hp
        split at hp
        · split at hp
          · simp at hp
          · split at hp
            · split at hp
              · simp at hp
              · split at hp
                · split at hp
                  · next hv0 =>
                    simp only [Option.some.injEq, Prod.mk.injEq] at hp
                    obtain ⟨h1, _⟩ := hp
                    subst h1
                    refine ⟨nodup_keys_insertPair _ _ hnd, ?_⟩
                    exact jwfP_insertPair hacc (ih.1 _ _ _ (by assumption)) _
                  · split at hp
                    · exact ih.2.1 _ _ _ _
                        (jwfP_insertPair hacc (ih.1 _ _ _ (by assumption)) _)
                        (nodup_keys_insertPair _ _ hnd) hp
                    · simp at hp
                · simp at hp
            · simp at hp
        · simp at hp
    · intro cs acc v r hacc hp
      simp only [parseElems] at hp
      split at hp
      · simp at hp
      · split at hp
        · split at hp
          · next hv0 =>
            simp only [Option.some.injEq, Prod.mk.injEq] at hp
            obtain ⟨h1, _⟩ := hp
            subst h1
            simp only [jwf]
            rw [jwfL_iff]
            intro y hy
            rw [List.mem_reverse] at hy
            rcases List.mem_cons.mp hy with h | h
            · subst h; exact ih.1 _ _ _ (by assumption)
            · exact (jwfL_iff acc).mp hacc y h
          · split at hp
            · refine ih.2.2 _ _ _ _ ?_ hp
              exact ⟨ih.1 _ _ _ (by assumption), hacc⟩
            · simp at hp
        · simp at hp

theorem loadsList_wf {cs : List Char} {v : JsonValue} (h : loadsList cs = some v) : jwf v := by
  unfold loadsList at h
  split at h
  · next v' rest heq =>
    split at h
    · rw [Option.some.injEq] at h
      subst h
      exact (parse_wf _).1 _ _ _ heq
    · exact absurd h (by simp)
  · exact absurd h (by simp)

/-! ### findSome? position lemmas: which candidate produced the result -/

theorem findSome?_split {α β : Type} {f : α → Option β} {l : List α} {v : β}
    (h : l.findSome? f = some v) :
    ∃ pre a post, l = pre ++ a :: post ∧ f a = some v ∧ ∀ x ∈ pre, f x = none := by
  induction l with
  | nil => simp [List.findSome?] at h
  | cons a l ih =>
    rw [List.findSome?_cons] at h
    cases hfa : f a with
    | some b =>
      rw [hfa] at h
      refine ⟨[], a, l, by simp, ?_, by simp⟩
      rw [hfa]
      simpa using h
    | none =>
      rw [hfa] at h
      simp only at h
      obtain ⟨pre, a', post, hl, hfa', hpre⟩ := ih h
      refine ⟨a :: pre, a', post, by rw [hl]; simp, hfa', ?_⟩
      intro x hx
      rcases List.mem_cons.mp hx with hx | hx
      · subst hx; exact hfa
      · exact hpre x hx

theorem mem_pre_of_not_rel {α : Type} {R : α → α → Prop} {pre post : List α} {a x : α}
    (hp : (pre ++ a :: post).Pairwise R) (hx : x ∈ pre ++ a :: post) (hxa : x ≠ a)
    (hR : ¬ R a x) : x ∈ pre := by
  rcases List.mem_append.mp hx with hx | hx
  · exact hx
  · rcases List.mem_cons.mp hx with hx | hx
    · exact absurd hx hxa
    · exact absurd ((List.pairwise_cons.mp (List.pairwise_append.mp hp).2.1).1 x hx) hR

theorem mem_startsOf {cs : List Char} {s : Nat} :
    s ∈ startsOf cs ↔ s < cs.length ∧ isOpenBracket (cs.getD s ' ') = true := by
  simp [startsOf, List.mem_filter, List.mem_range]

theorem startsOf_sorted (cs : List Char) : (startsOf cs).Pairwise (· < ·) :=
  (List.pairwise_lt_range cs.length).sublist (List.filter_sublist _)

theorem mem_endsOf {len s e : Nat} : e ∈ endsOf len s ↔ s < e ∧ e ≤ len := by
  simp only [endsOf, List.mem_map, List.mem_range]
  constructor
  · rintro ⟨k, hk, rfl⟩; omega
  · rintro ⟨h1, h2⟩; exact ⟨len - e, by omega, by omega⟩

theorem endsOf_sorted (len s : Nat) : (endsOf len s).Pairwise (· > ·) := by
  rw [endsOf, List.pairwise_map]
  refine (List.pairwise_lt_range _).imp_of_mem ?_
  intro a b ha hb hab
  rw [List.mem_range] at ha hb
  show len - b < len - a
  omega

theorem tryStart_some {cs : List Char} {s : Nat} {v : JsonValue} (h : tryStart cs s = some v) :
    ∃ e, s < e ∧ e ≤ cs.length ∧ loadsList (sliceOf cs s e) = some v
      ∧ ∀ e', e < e' → e' ≤ cs.length → loadsList (sliceOf cs s e') = none := by
  obtain ⟨pre, e, post, hsplit, hfe, hpre⟩ := findSome?_split h
  have hmem : e ∈ endsOf cs.length s := by rw [hsplit]; simp
  obtain ⟨h1, h2⟩ := mem_endsOf.mp hmem
  refine ⟨e, h1, h2, hfe, ?_⟩
  intro e' he' hle
  have hmem' : e' ∈ endsOf cs.length s := mem_endsOf.mpr ⟨by omega, hle⟩
  exact hpre e'
    (mem_pre_of_not_rel (hsplit ▸ endsOf_sorted cs.length s) (hsplit ▸ hmem')
      (by omega) (by omega))

theorem tryStart_none_iff {cs : List Char} {s : Nat} :
    tryStart cs s = none
      ↔ ∀ e, s < e → e ≤ cs.length → loadsList (sliceOf cs s e) = none := by
  rw [tryStart, List.findSome?_eq_none_iff]
  constructor
  · intro h e h1 h2
    exact h e (mem_endsOf.mpr ⟨h1, h2⟩)
  · intro h e he
    obtain ⟨h1, h2⟩ := mem_endsOf.mp he
    exact h e h1 h2

theorem extractFirstJson_none_iff {cs : List Char} :
    extractFirstJson cs = none
      ↔ ∀ s ∈ startsOf cs, ∀ e, s < e → e ≤ cs.length → loadsList (sliceOf cs s e) = none := by
  rw [extractFirstJson, List.findSome?_eq_none_iff]
  constructor
  · intro h s hs
    exact tryStart_none_iff.mp (h s hs)
  · intro h s hs
    exact tryStart_none_iff.mpr (h s hs)

theorem extractFirstJson_some {cs : List Char} {v : JsonValue}
    (h : extractFirstJson cs = some v) :
    ∃ s ∈ startsOf cs, tryStart cs s = some v
      ∧ ∀ s' ∈ startsOf cs, s' < s → tryStart cs s' = none := by
  obtain ⟨pre, s, post, hsplit, hfs, hpre⟩ := findSome?_split h
  refine ⟨s, by rw [hsplit]; simp, hfs, ?_⟩
  intro s' hs' hlt
  exact hpre s'
    (mem_pre_of_not_rel (hsplit ▸ startsOf_sorted cs) (hsplit ▸ hs') (by omega) (by omega))

/-! ### Shape of parsed values: a bracket start yields a container -/

theorem parseMembers_shape : ∀ f cs acc v r, parseMembers f cs acc = some (v, r) →
    ∃ ps, v = JsonValue.obj ps := by
  intro f
  induction f with
  | zero => intro cs acc v r hp; simp [parseMembers] at hp
  | succ f ih =>
    intro cs acc v r hp
    cases cs with
    | nil => simp [parseMembers] at hp
    | cons c rest =>
      simp only [parseMembers] at hp
      split at hp
      · split at hp
        · simp at hp
        · split at hp
          · split at hp
            · simp at hp
            · split at hp
              · split at hp
                · simp only [Option.some.injEq, Prod.mk.injEq] at hp
                  exact ⟨_, hp.1.symm⟩
                · split at hp
                  · exact ih _ _ _ _ hp
                  · simp at hp
              · simp at hp
          · simp at hp
      · simp at hp

theorem parseElems_shape : ∀ f cs acc v r, parseElems f cs acc = some (v, r) →
    ∃ xs, v = JsonValue.arr xs := by
  intro f
  induction f with
  | zero => intro cs acc v r hp; simp [parseElems] at hp
  | succ f ih =>
    intro cs acc v r hp
    simp only [parseElems] at hp
    split at hp
    · simp at hp
    · split at hp
      · split at hp
        · simp only [Option.some.injEq, Prod.mk.injEq] at hp
          exact ⟨_, hp.1.symm⟩
        · split at hp
          · exact ih _ _ _ _ hp
          · simp at hp
      · simp at hp

theorem parseValue_shape_lbrace {f : Nat} {rest : List Char} {v : JsonValue} {r : List Char}
    (h : parseValue f (lbrace :: rest) = some (v, r)) : ∃ ps, v = JsonValue.obj ps := by
  cases f with
  | zero => simp [parseValue] at h
  | succ f =>
    rw [parseValue_lbrace] at h
    split at h
    · split at h
      · simp only [Option.some.injEq, Prod.mk.injEq] at h
        exact ⟨[], h.1.symm⟩
      · exact parseMembers_shape _ _ _ _ _ h
    · simp at h

theorem parseValue_shape_lbrack {f : Nat} {rest : List Char} {v : JsonValue} {r : List Char}
    (h : parseValue f ('[' :: rest) = some (v, r)) : ∃ xs, v = JsonValue.arr xs := by
  cases f with
  | zero => simp [parseValue] at h
  | succ f =>
    rw [parseValue_lbrack] at h
    split at h
    · split at h
      · simp only [Option.some.injEq, Prod.mk.injEq] at h
        exact ⟨[], h.1.symm⟩
      · exact parseElems_shape _ _ _ _ _ h
    · simp at h

theorem loadsList_bracket_shape {c : Char} {rest : List Char} {v : JsonValue}
    (hc : isOpenBracket c = true) (h : loadsList (c :: rest) = some v) :
    (∃ ps, v = JsonValue.obj ps) ∨ (∃ xs, v = JsonValue.arr xs) := by
  have hor : c = lbrace ∨ c = '[' := by
    simpa [isOpenBracket] using hc
  have hnw : isJsonWs c = false := by
    rcases hor with rfl | rfl <;> decide
  unfold loadsList at h
  rw [skipWs_not_ws hnw] at h
  split at h
  · next v' rest' heq =>
    split at h
    · rw [Option.some.injEq] at h
      subst h
      rcases hor with rfl | rfl
      · exact Or.inl (parseValue_shape_lbrace heq)
      · exact Or.inr (parseValue_shape_lbrack heq)
    · exact absurd h (by simp)
  · exact absurd h (by simp)

theorem sliceOf_head (cs : List Char) (s e : Nat) (h1 : s < cs.length) (h2 : s < e) :
    ∃ tail, sliceOf cs s e = cs.getD s ' ' :: tail := by
  unfold sliceOf
  rw [List.getD_eq_getElem cs ' ' h1, List.drop_eq_getElem_cons h1]
  obtain ⟨k, hk⟩ : ∃ k, e - s = k + 1 := ⟨e - s - 1, by omega⟩
  rw [hk, List.take_succ_cons]
  exact ⟨_, rfl⟩

/-! ### Extraction applied to the serializer output -/

theorem dumpsI_obj_head (ind : Nat) (ps : List (String × JsonValue)) :
    ∃ tl, dumpsI ind (.obj ps) = lbrace :: tl := by
  cases ps with
  | nil => exact ⟨[rbrace], rfl⟩
  | cons p ps =>
    exact ⟨'\n' :: spacesList (ind + 2) ++ dumpsIPair ind p ++ dumpsIMembers ind ps
      ++ '\n' :: spacesList ind ++ [rbrace], by rw [dumpsI]; simp⟩

theorem dumpsI_arr_head (ind : Nat) (xs : List JsonValue) :
    ∃ tl, dumpsI ind (.arr xs) = '[' :: tl := by
  cases xs with
  | nil => exact ⟨[']'], rfl⟩
  | cons x xs =>
    exact ⟨'\n' :: spacesList (ind + 2) ++ dumpsI (ind + 2) x ++ dumpsIElems ind xs
      ++ '\n' :: spacesList ind ++ [']'], by rw [dumpsI]; simp⟩

theorem startsOf_cons_bracket {c : Char} (hc : isOpenBracket c = true) (rest : List Char) :
    ∃ tail, startsOf (c :: rest) = 0 :: tail := by
  unfold startsOf
  rw [List.length_cons, List.range_succ_eq_map, List.filter_cons]
  simp only [List.getD_cons_zero, hc, if_true]
  exact ⟨_, rfl⟩

theorem endsOf_zero_head (m : Nat) : ∃ tail, endsOf (m + 1) 0 = (m + 1) :: tail := by
  unfold endsOf
  rw [Nat.sub_zero, List.range_succ_eq_map, List.map_cons, Nat.sub_zero]
  exact ⟨_, rfl⟩

theorem extractFirstJson_serialized {v : JsonValue} (hwf : jwf v) {c : Char} {tl : List Char}
    (hd : dumpsI 0 v = c :: tl) (hc : isOpenBracket c = true) :
    extractFirstJson (dumpsI 0 v ++ ['\n']) = some v := by
  have htc : dumpsI 0 v ++ ['\n'] = c :: (tl ++ ['\n']) := by rw [hd]; simp
  obtain ⟨tail, hst⟩ := startsOf_cons_bracket hc (tl ++ ['\n'])
  have htry : tryStart (c :: (tl ++ ['\n'])) 0 = some v := by
    unfold tryStart
    rw [show (c :: (tl ++ ['\n'])).length = (tl ++ ['\n']).length + 1 from rfl]
    obtain ⟨tail2, he⟩ := endsOf_zero_head (tl ++ ['\n']).length
    rw [he, List.findSome?_cons]
    have hslice : sliceOf (c :: (tl ++ ['\n'])) 0 ((tl ++ ['\n']).length + 1)
        = c :: (tl ++ ['\n']) := by
      unfold sliceOf
      rw [List.drop_zero, Nat.sub_zero,
        show (tl ++ ['\n']).length + 1 = (c :: (tl ++ ['\n'])).length from rfl,
        List.take_length]
    rw [hslice, ← htc, loads_append_newline v hwf]
  unfold extractFirstJson
  rw [htc, hst, List.findSome?_cons, htry]

/-! ### The compact serialization is a single line: it contains no newline -/

theorem newline_notin_hexDigit {m : Nat} (h : m < 16) : hexDigitChar m ≠ '\n' := by
  interval_cases m <;> decide

theorem newline_notin_escChar (c : Char) : '\n' ∉ escChar c := by
  rw [escChar]
  by_cases h1 : c = '"'
  · rw [if_pos h1]; decide
  rw [if_neg h1]
  by_cases h2 : c = '\\'
  · rw [if_pos h2]; decide
  rw [if_neg h2]
  by_cases h3 : c = Char.ofNat 8
  · rw [if_pos h3]; decide
  rw [if_neg h3]
  by_cases h4 : c = '\t'
  · rw [if_pos h4]; decide
  rw [if_neg h4]
  by_cases h5 : c = '\n'
  · rw [if_pos h5]; decide
  rw [if_neg h5]
  by_cases h6 : c = Char.ofNat 12
  · rw [if_pos h6]; decide
  rw [if_neg h6]
  by_cases h7 : c = '\r'
  · rw [if_pos h7]; decide
  rw [if_neg h7]
  by_cases h8 : c.toNat < 0x20
  · rw [if_pos h8]
    intro hmem
    simp only [List.mem_cons, List.not_mem_nil, or_false] at hmem
    rcases hmem with h | h | h | h | h | h
    · exact absurd h (by decide)
    · exact absurd h (by decide)
    · exact absurd h (by decide)
    · exact absurd h (by decide)
    · exact absurd h.symm (newline_notin_hexDigit (by omega))
    · exact absurd h.symm (newline_notin_hexDigit (by omega))
  · rw [if_neg h8]
    intro hmem
    simp only [List.mem_cons, List.not_mem_nil, or_false] at hmem
    exact h5 hmem.symm

theorem newline_notin_escapeChars (l : List Char) : '\n' ∉ escapeChars l := by
  induction l with
  | nil => simp [escapeChars]
  | cons c cs ih =>
    show '\n' ∉ escChar c ++ escapeChars cs
    intro hmem
    rcases List.mem_append.mp hmem with h | h
    · exact newline_notin_escChar c h
    · exact ih h

theorem newline_notin_encodeStringList (s : String) : '\n' ∉ encodeStringList s := by
  rw [encodeStringList]
  intro hmem
  rcases List.mem_cons.mp hmem with h | h
  · exact absurd h (by decide)
  · rcases List.mem_append.mp h with h | h
    · exact newline_notin_escapeChars _ h
    · exact absurd (List.mem_singleton.mp h) (by decide)

theorem newline_notin_natToChars (n : Nat) : '\n' ∉ natToChars n := by
  intro h
  exact absurd (natToChars_mem_isDigit n '\n' h) (by decide)

theorem newline_notin_intToChars (n : Int) : '\n' ∉ intToChars n := by
  rw [intToChars]
  split
  · intro h
    rcases List.mem_cons.mp h with h | h
    · exact absurd h (by decide)
    · exact newline_notin_natToChars _ h
  · exact newline_notin_natToChars _

theorem newline_notin_dumpsCPair {p : String × JsonValue} (hv : '\n' ∉ dumpsC p.2) :
    '\n' ∉ dumpsCPair p := by
  obtain ⟨k, v⟩ := p
  show '\n' ∉ encodeStringList k ++ ':' :: ' ' :: dumpsC v
  intro hmem
  rcases List.mem_append.mp hmem with h | h
  · exact newline_notin_encodeStringList _ h
  rcases List.mem_cons.mp h with h | h
  · exact absurd h (by decide)
  rcases List.mem_cons.mp h with h | h
  · exact absurd h (by decide)
  · exact hv h

theorem newline_notin_dumpsCElems {xs : List JsonValue}
    (h : ∀ x ∈ xs, '\n' ∉ dumpsC x) : '\n' ∉ dumpsCElems xs := by
  induction xs with
  | nil => simp [dumpsCElems]
  | cons x xs ih =>
    show '\n' ∉ ',' :: ' ' :: (dumpsC x ++ dumpsCElems xs)
    intro hmem
    rcases List.mem_cons.mp hmem with h1 | hmem
    · exact absurd h1 (by decide)
    rcases List.mem_cons.mp hmem with h1 | hmem
    · exact absurd h1 (by decide)
    rcases List.mem_append.mp hmem with h1 | h1
    · exact h x (List.mem_cons_self _ _) h1
    · exact ih (fun y hy => h y (List.mem_cons_of_mem _ hy)) h1

theorem newline_notin_dumpsCMembers {ps : List (String × JsonValue)}
    (h : ∀ p ∈ ps, '\n' ∉ dumpsCPair p) : '\n' ∉ dumpsCMembers ps := by
  induction ps with
  | nil => simp [dumpsCMembers]
  | cons p ps ih =>
    show '\n' ∉ ',' :: ' ' :: (dumpsCPair p ++ dumpsCMembers ps)
    intro hmem
    rcases List.mem_cons.mp hmem with h1 | hmem
    · exact absurd h1 (by decide)
    rcases List.mem_cons.mp hmem with h1 | hmem
    · exact absurd h1 (by decide)
    rcases List.mem_append.mp hmem with h1 | h1
    · exact h p (List.mem_cons_self _ _) h1
    · exact ih (fun q hq => h q (List.mem_cons_of_mem _ hq)) h1

theorem newline_notin_dumpsC_bounded :
    ∀ (N : Nat) (v : JsonValue), jsize v ≤ N → '\n' ∉ dumpsC v := by
  intro N
  induction N with
  | zero =>
    intro v hv
    exact absurd (jsize_pos v) (by omega)
  | succ N ih =>
    intro v hv
    cases v with
    | null => decide
    | bool b => cases b <;> decide
    | num n => exact newline_notin_intToChars n
    | str s => exact newline_notin_encodeStringList s
    | arr xs =>
      cases xs with
      | nil => decide
      | cons x xs =>
        simp only [jsize, jsizeL] at hv
        show '\n' ∉ '[' :: (dumpsC x ++ dumpsCElems xs ++ [']'])
        intro hmem
        rcases List.mem_cons.mp hmem with h1 | hmem
        · exact absurd h1 (by decide)
        rcases List.mem_append.mp hmem with hmem | h1
        · rcases List.mem_append.mp hmem with h1 | h1
          · exact ih x (by omega) h1
          · refine newline_notin_dumpsCElems (fun y hy => ih y ?_) h1
            have := jsizeL_mem hy
            omega
        · exact absurd (List.mem_singleton.mp h1) (by decide)
    | obj ps =>
      cases ps with
      | nil => decide
      | cons p ps =>
        obtain ⟨k, v0⟩ := p
        simp only [jsize, jsizeP] at hv
        show '\n' ∉ lbrace :: (dumpsCPair (k, v0) ++ dumpsCMembers ps ++ [rbrace])
        intro hmem
        rcases List.mem_cons.mp hmem with h1 | hmem
        · exact absurd h1 (by decide)
        rcases List.mem_append.mp hmem with hmem | h1
        · rcases List.mem_append.mp hmem with h1 | h1
          · exact newline_notin_dumpsCPair (ih v0 (by omega)) h1
          · refine newline_notin_dumpsCMembers
              (fun q hq => newline_notin_dumpsCPair (ih q.2 ?_)) h1
            have := jsizeP_mem hq
            omega
        · exact absurd (List.mem_singleton.mp h1) (by decide)

theorem newline_notin_dumpsC (v : JsonValue) : '\n' ∉ dumpsC v :=
  newline_notin_dumpsC_bounded (jsize v) v le_rfl

/-! ### The appender on a well-formed state record -/

/-- A run directory whose state record parses to a JSON object holding
an integer nextEventId, well formed (objects dict-shaped with distinct
keys, as every record the tools themselves write is). -/
def goodState (fs : RunDir) (fields : List (String × JsonValue)) (n : Int) : Prop :=
  (∃ s, fs.stateFile = some s ∧ loads s = some (.obj fields))
  ∧ lookupKey fields "nextEventId" = some (.num n)
  ∧ jwfP fields ∧ (fields.map Prod.fst).Nodup

theorem stateEventId_good {fs : RunDir} {fields : List (String × JsonValue)} {n : Int}
    (h : goodState fs fields n) : stateEventId fs = some (String.mk (intToChars n)) := by
  obtain ⟨⟨s, hs, hl⟩, hk, _, _⟩ := h
  simp only [stateEventId, hs, hl, hk, Option.getD_some]
  rfl

theorem appendEvent_step {fs : RunDir} {fields : List (String × JsonValue)} {n : Int}
    (a : AppendArgs) (now : String) (h : goodState fs fields n) :
    ∃ fields2 : List (String × JsonValue),
      appendEvent fs a now
        = ({ stateFile := some (dumpsIndentStr (.obj fields2) ++ "\n"),
             journal := fs.journal
               ++ dumpsCompactStr (mkEntry a now (String.mk (intToChars n))) ++ "\n" }, none)
      ∧ goodState
          { stateFile := some (dumpsIndentStr (.obj fields2) ++ "\n"),
            journal := fs.journal
              ++ dumpsCompactStr (mkEntry a now (String.mk (intToChars n))) ++ "\n" }
          fields2 (n + 1)
      ∧ (∀ k, k ≠ "nextEventId" → k ≠ "status" → lookupKey fields2 k = lookupKey fields k)
      ∧ (a.setStatus = "" → lookupKey fields2 "status" = lookupKey fields "status") := by
  obtain ⟨⟨s, hs, hl⟩, hk, hwf, hnd⟩ := h
  have heid : pyStr ((lookupKey fields "nextEventId").getD (.num 1))
      = String.mk (intToChars n) := by
    rw [hk]; rfl
  have hpi : pyInt (String.mk (intToChars n)) = some n := pyIntChars_intToChars n
  have hwf1 : jwfP (insertPair fields "nextEventId" (.num (n + 1))) :=
    jwfP_insertPair hwf (show jwf (JsonValue.num (n + 1)) from trivial) _
  have hnd1 : ((insertPair fields "nextEventId" (.num (n + 1))).map Prod.fst).Nodup :=
    nodup_keys_insertPair _ _ hnd
  have hload2 : ∀ ps : List (String × JsonValue), jwfP ps → (ps.map Prod.fst).Nodup →
      loads (dumpsIndentStr (.obj ps) ++ "\n") = some (.obj ps) := by
    intro ps hw hn
    show loadsList (dumpsIndentStr (.obj ps) ++ "\n").data = _
    rw [String.data_append, show (dumpsIndentStr (.obj ps)).data = dumpsI 0 (.obj ps) from rfl,
      show ("\n" : String).data = ['\n'] from rfl]
    exact loads_append_newline _ ⟨hn, hw⟩
  by_cases hss : a.setStatus = ""
  · refine ⟨insertPair fields "nextEventId" (.num (n + 1)), ?_, ?_, ?_, ?_⟩
    · simp only [appendEvent, hs, hl, heid, hpi]
      rw [if_neg (by simp [hss])]
    · exact ⟨⟨_, rfl, hload2 _ hwf1 hnd1⟩, lookupKey_insertPair_self _ _ _, hwf1, hnd1⟩
    · intro k hk1 _
      exact lookupKey_insertPair_ne _ _ _ _ hk1
    · intro _
      exact lookupKey_insertPair_ne _ _ _ _ (by decide)
  · refine ⟨insertPair (insertPair fields "nextEventId" (.num (n + 1))) "status"
        (.str a.setStatus), ?_, ?_, ?_, ?_⟩
    · simp only [appendEvent, hs, hl, heid, hpi]
      rw [if_pos hss]
    · refine ⟨⟨_, rfl, hload2 _
          (jwfP_insertPair hwf1 (show jwf (JsonValue.str a.setStatus) from trivial) _)
          (nodup_keys_insertPair _ _ hnd1)⟩,
        ?_, jwfP_insertPair hwf1 (show jwf (JsonValue.str a.setStatus) from trivial) _,
        nodup_keys_insertPair _ _ hnd1⟩
      rw [lookupKey_insertPair_ne _ _ _ _ (by decide)]
      exact lookupKey_insertPair_self _ _ _
    · intro k hk1 hk2
      rw [lookupKey_insertPair_ne _ _ _ _ hk2]
      exact lookupKey_insertPair_ne _ _ _ _ hk1
    · intro hc
      exact absurd hc hss

/-! ## The claims -/

/-- Claim C1: extraction commits to the earliest bracket position from which
some substring parses, and at that position it returns the longest parseable
substring (ends tried from the full text length downwards); in particular the
prefix-a/suffix-b input extracts the earlier object, never the later one. -/
theorem claim_C1 :
    (∀ (cs : List Char) (v : JsonValue), extractFirstJson cs = some v →
      ∃ s, s ∈ startsOf cs ∧ tryStart cs s = some v
        ∧ (∀ s', s' ∈ startsOf cs → s' < s → tryStart cs s' = none)
        ∧ ∃ e, s < e ∧ e ≤ cs.length ∧ loadsList (sliceOf cs s e) = some v
            ∧ ∀ e', e < e' → e' ≤ cs.length → loadsList (sliceOf cs s e') = none)
    ∧ extractFirstJson "prefix \x7b\"a\":1\x7d suffix \x7b\"b\":2\x7d".data
        = some (.obj [("a", .num 1)]) := by
  constructor
  · intro cs v h
    obtain ⟨s, hmem, hts, hearlier⟩ := extractFirstJson_some h
    exact ⟨s, hmem, hts, hearlier, tryStart_some hts⟩
  · rfl

/-- Witness for C1 at a concrete input. -/
theorem claim_C1_witness :
    ∃ s, s ∈ startsOf (String.data "[]") ∧ tryStart (String.data "[]") s = some (.arr [])
      ∧ (∀ s', s' ∈ startsOf (String.data "[]") → s' < s → tryStart (String.data "[]") s' = none)
      ∧ ∃ e, s < e ∧ e ≤ (String.data "[]").length
          ∧ loadsList (sliceOf (String.data "[]") s e) = some (.arr [])
          ∧ ∀ e', e < e' → e' ≤ (String.data "[]").length
              → loadsList (sliceOf (String.data "[]") s e') = none :=
  claim_C1.1 (String.data "[]") (.arr []) rfl

/-- Claim C5: extraction fails (the no-JSON-found ValueError) iff no substring
starting at a bracket position parses; a bracket-free input always fails; the
noise input recovers the second object after every truncation of the first
bracket fails. -/
theorem claim_C5 :
    (∀ cs : List Char, extractFirstJson cs = none
        ↔ ∀ s ∈ startsOf cs, ∀ e, s < e → e ≤ cs.length → loadsList (sliceOf cs s e) = none)
    ∧ (∀ cs : List Char, (∀ c ∈ cs, isOpenBracket c = false) → extractFirstJson cs = none)
    ∧ extractFirstJson "noise \x7b not json \x7d \x7b\"ok\":true\x7d".data
        = some (.obj [("ok", .bool true)]) := by
  refine ⟨fun cs => extractFirstJson_none_iff, ?_, rfl⟩
  intro cs h
  rw [extractFirstJson_none_iff]
  intro s hs
  exfalso
  rw [mem_startsOf] at hs
  have hlt : s < cs.length := hs.1
  have hob : isOpenBracket cs[s] = true := by
    rw [← List.getD_eq_getElem cs ' ' hlt]
    exact hs.2
  rw [h cs[s] (List.getElem_mem hlt)] at hob
  exact absurd hob (by decide)

/-- Witness for C5 at a concrete bracket-free input. -/
theorem claim_C5_witness : extractFirstJson (String.data "abc") = none :=
  claim_C5.2.1 (String.data "abc") (by decide)

/-- Claim C8: extraction is idempotent: if extraction succeeds with v, running
extraction on the tool's serialization of v returns exactly v. -/
theorem claim_C8 (cs : List Char) (v : JsonValue) (h : extractFirstJson cs = some v) :
    extractFirstJson (extractorOutput v).data = some v := by
  have hmain : ((∃ ps, v = JsonValue.obj ps) ∨ (∃ xs, v = JsonValue.arr xs)) ∧ jwf v := by
    obtain ⟨s, hmem, hts, _⟩ := extractFirstJson_some h
    obtain ⟨e, h1, h2, hload, _⟩ := tryStart_some hts
    obtain ⟨hlt, hob⟩ := mem_startsOf.mp hmem
    obtain ⟨tail, hslice⟩ := sliceOf_head cs s e hlt h1
    rw [hslice] at hload
    exact ⟨loadsList_bracket_shape hob hload, loadsList_wf hload⟩
  show extractFirstJson (dumpsI 0 v ++ ['\n']) = some v
  rcases hmain.1 with ⟨ps, rfl⟩ | ⟨xs, rfl⟩
  · obtain ⟨tl, hd⟩ := dumpsI_obj_head 0 ps
    exact extractFirstJson_serialized hmain.2 hd (by decide)
  · obtain ⟨tl, hd⟩ := dumpsI_arr_head 0 xs
    exact extractFirstJson_serialized hmain.2 hd (by decide)

/-- Witness for C8 at a concrete input. -/
theorem claim_C8_witness :
    extractFirstJson (extractorOutput (JsonValue.obj [("a", JsonValue.num 1)])).data
      = some (JsonValue.obj [("a", JsonValue.num 1)]) :=
  claim_C8 (String.data "x \x7b\"a\":1\x7d") (JsonValue.obj [("a", JsonValue.num 1)]) rfl

/-- Claim C9: the decode step dispatches on leading bytes: a 2-byte UTF-16 BOM
of either byte order selects strict UTF-16 (BOM consumed as the byte-order
mark), the 3-byte UTF-8 BOM selects UTF-8 with the BOM stripped, and otherwise
the input is decoded as UTF-8 with invalid sequences replaced, never failing. -/
theorem claim_C9 (raw : List Nat) :
    (raw.take 2 = [0xff, 0xfe] →
      decodeInput raw = (utf16Units true (raw.drop 2)).bind utf16Combine)
    ∧ (raw.take 2 = [0xfe, 0xff] →
      decodeInput raw = (utf16Units false (raw.drop 2)).bind utf16Combine)
    ∧ (raw.take 2 ≠ [0xff, 0xfe] → raw.take 2 ≠ [0xfe, 0xff] →
        raw.take 3 = [0xef, 0xbb, 0xbf] →
      decodeInput raw = some (utf8Replace (raw.drop 3)))
    ∧ (raw.take 2 ≠ [0xff, 0xfe] → raw.take 2 ≠ [0xfe, 0xff] →
        raw.take 3 ≠ [0xef, 0xbb, 0xbf] →
      decodeInput raw = some (utf8Replace raw)) := by
  refine ⟨?_, ?_, ?_, ?_⟩
  · intro h2
    have hr : raw = 0xff :: 0xfe :: raw.drop 2 := by
      conv_lhs => rw [← List.take_append_drop 2 raw]
      rw [h2]
      rfl
    unfold decodeInput
    rw [if_pos (by simp [h2])]
    conv_lhs => rw [hr]
    rfl
  · intro h2
    have hr : raw = 0xfe :: 0xff :: raw.drop 2 := by
      conv_lhs => rw [← List.take_append_drop 2 raw]
      rw [h2]
      rfl
    unfold decodeInput
    rw [if_pos (by simp [h2])]
    conv_lhs => rw [hr]
    rfl
  · intro h2a h2b h3
    unfold decodeInput
    rw [if_neg (by simp [h2a, h2b]), if_pos h3]
  · intro h2a h2b h3
    unfold decodeInput
    rw [if_neg (by simp [h2a, h2b]), if_neg h3]

/-- Witness for C9 at a concrete input. -/
theorem claim_C9_witness :
    decodeInput [0xff, 0xfe, 0x41, 0x00]
      = (utf16Units true ([0xff, 0xfe, 0x41, 0x00].drop 2)).bind utf16Combine :=
  (claim_C9 [0xff, 0xfe, 0x41, 0x00]).1 rfl

/-- Claim C2 (corrected): a missing state file and an unparsable state record
are indeed fatal (FileNotFoundError / JSONDecodeError propagate, non-zero
exit).  But the spec's third precondition is not enforced by the code: a valid
JSON object LACKING nextEventId does not fail — state.get("nextEventId", 1)
silently defaults the id to 1 (see claim_C2_counterexample).  This theorem
proves the true part of the claim. -/
theorem claim_C2 :
    (∀ (j : String) (a : AppendArgs) (now : String),
      appendEvent ⟨none, j⟩ a now = (⟨none, j⟩, some .fileNotFound)
        ∧ exitCode (appendEvent ⟨none, j⟩ a now).2 = 1)
    ∧ (∀ (fs : RunDir) (s : String) (a : AppendArgs) (now : String),
        fs.stateFile = some s → loads s = none →
        appendEvent fs a now = (fs, some .jsonDecodeError)
          ∧ exitCode (appendEvent fs a now).2 = 1) := by
  refine ⟨fun j a now => ⟨rfl, rfl⟩, ?_⟩
  intro fs s a now hs hl
  have happ : appendEvent fs a now = (fs, some .jsonDecodeError) := by
    simp only [appendEvent, hs, hl]
  exact ⟨happ, by rw [happ]; rfl⟩

/-- Witness for C2 at a concrete unparsable state record. -/
theorem claim_C2_witness :
    appendEvent ⟨some "oops", ""⟩ ⟨"x", "\x7b\x7d", "event", "", ""⟩ "T"
        = (⟨some "oops", ""⟩, some PyError.jsonDecodeError)
      ∧ exitCode (appendEvent ⟨some "oops", ""⟩ ⟨"x", "\x7b\x7d", "event", "", ""⟩ "T").2 = 1 :=
  claim_C2.2 ⟨some "oops", ""⟩ "oops" ⟨"x", "\x7b\x7d", "event", "", ""⟩ "T" rfl rfl

/-- Counterexample to C2 as stated: a valid JSON object state lacking
nextEventId is not fatal — the append succeeds (exit 0) and the id silently
defaults to "1". -/
theorem claim_C2_counterexample :
    (appendEvent ⟨some "\x7b\x7d", ""⟩ ⟨"x", "\x7b\x7d", "event", "", ""⟩ "T").2 = none
      ∧ exitCode (appendEvent ⟨some "\x7b\x7d", ""⟩ ⟨"x", "\x7b\x7d", "event", "", ""⟩ "T").2 = 0
      ∧ stateEventId ⟨some "\x7b\x7d", ""⟩ = some "1" :=
  ⟨rfl, rfl, rfl⟩

/-- Claim C4: under the precondition, the append succeeds, writes exactly one
journal line whose entry id is the decimal string of the nextEventId read
before the increment, and leaves the state counter at its successor. -/
theorem claim_C4 (fs : RunDir) (fields : List (String × JsonValue)) (n : Int)
    (a : AppendArgs) (now : String) (h : goodState fs fields n) :
    (appendEvent fs a now).2 = none
    ∧ (appendEvent fs a now).1.journal
        = fs.journal ++ dumpsCompactStr (mkEntry a now (String.mk (intToChars n))) ++ "\n"
    ∧ (∃ entryFields, mkEntry a now (String.mk (intToChars n)) = .obj entryFields
        ∧ lookupKey entryFields "id" = some (.str (String.mk (intToChars n))))
    ∧ stateEventId (appendEvent fs a now).1 = some (String.mk (intToChars (n + 1))) := by
  obtain ⟨fields2, happ, hgood2, _, _⟩ := appendEvent_step a now h
  rw [happ]
  exact ⟨rfl, rfl, ⟨_, rfl, rfl⟩, stateEventId_good hgood2⟩

/-- Witness for C4 at the concrete starting state of the claim. -/
theorem claim_C4_witness :
    (appendEvent ⟨some "\x7b\"nextEventId\":1\x7d", ""⟩
        ⟨"x", "\x7b\x7d", "event", "", ""⟩ "T").2 = none
    ∧ (appendEvent ⟨some "\x7b\"nextEventId\":1\x7d", ""⟩
        ⟨"x", "\x7b\x7d", "event", "", ""⟩ "T").1.journal
        = (⟨some "\x7b\"nextEventId\":1\x7d", ""⟩ : RunDir).journal
          ++ dumpsCompactStr (mkEntry ⟨"x", "\x7b\x7d", "event", "", ""⟩ "T"
              (String.mk (intToChars 1))) ++ "\n"
    ∧ (∃ entryFields, mkEntry ⟨"x", "\x7b\x7d", "event", "", ""⟩ "T"
          (String.mk (intToChars 1)) = .obj entryFields
        ∧ lookupKey entryFields "id" = some (.str (String.mk (intToChars 1))))
    ∧ stateEventId (appendEvent ⟨some "\x7b\"nextEventId\":1\x7d", ""⟩
        ⟨"x", "\x7b\x7d", "event", "", ""⟩ "T").1 = some (String.mk (intToChars (1 + 1))) :=
  claim_C4 ⟨some "\x7b\"nextEventId\":1\x7d", ""⟩ [("nextEventId", JsonValue.num 1)] 1
    ⟨"x", "\x7b\x7d", "event", "", ""⟩ "T"
    ⟨⟨"\x7b\"nextEventId\":1\x7d", rfl, rfl⟩, rfl, ⟨trivial, trivial⟩, by decide⟩

/-- Claim C6: the data argument never fails the append: invalid JSON data is
wrapped as the object with single key "raw" holding the original string, valid
JSON data is recorded parsed; the journal entry's data field is exactly this
lenient parse. -/
theorem claim_C6 (fs : RunDir) (fields : List (String × JsonValue)) (n : Int)
    (a : AppendArgs) (now : String) (h : goodState fs fields n) :
    (appendEvent fs a now).2 = none
    ∧ (appendEvent fs a now).1.journal
        = fs.journal ++ dumpsCompactStr (mkEntry a now (String.mk (intToChars n))) ++ "\n"
    ∧ (∃ entryFields, mkEntry a now (String.mk (intToChars n)) = .obj entryFields
        ∧ lookupKey entryFields "data" = some (dataObjOf a.data))
    ∧ (loads a.data = none → dataObjOf a.data = .obj [("raw", .str a.data)])
    ∧ (∀ dv, loads a.data = some dv → dataObjOf a.data = dv) := by
  obtain ⟨fields2, happ, _, _, _⟩ := appendEvent_step a now h
  rw [happ]
  refine ⟨rfl, rfl, ⟨_, rfl, rfl⟩, ?_, ?_⟩
  · intro hl
    unfold dataObjOf
    rw [hl]
  · intro dv hl
    unfold dataObjOf
    rw [hl]

/-- Witness for C6 at the concrete non-JSON data "hello". -/
theorem claim_C6_witness :
    (appendEvent ⟨some "\x7b\"nextEventId\":1\x7d", ""⟩
        ⟨"x", "hello", "event", "", ""⟩ "T").2 = none
    ∧ (appendEvent ⟨some "\x7b\"nextEventId\":1\x7d", ""⟩
        ⟨"x", "hello", "event", "", ""⟩ "T").1.journal
        = (⟨some "\x7b\"nextEventId\":1\x7d", ""⟩ : RunDir).journal
          ++ dumpsCompactStr (mkEntry ⟨"x", "hello", "event", "", ""⟩ "T"
              (String.mk (intToChars 1))) ++ "\n"
    ∧ (∃ entryFields, mkEntry ⟨"x", "hello", "event", "", ""⟩ "T"
          (String.mk (intToChars 1)) = .obj entryFields
        ∧ lookupKey entryFields "data"
            = some (dataObjOf (⟨"x", "hello", "event", "", ""⟩ : AppendArgs).data))
    ∧ (loads (⟨"x", "hello", "event", "", ""⟩ : AppendArgs).data = none →
        dataObjOf (⟨"x", "hello", "event", "", ""⟩ : AppendArgs).data
          = .obj [("raw", .str (⟨"x", "hello", "event", "", ""⟩ : AppendArgs).data)])
    ∧ (∀ dv, loads (⟨"x", "hello", "event", "", ""⟩ : AppendArgs).data = some dv →
        dataObjOf (⟨"x", "hello", "event", "", ""⟩ : AppendArgs).data = dv) :=
  claim_C6 ⟨some "\x7b\"nextEventId\":1\x7d", ""⟩ [("nextEventId", JsonValue.num 1)] 1
    ⟨"x", "hello", "event", "", ""⟩ "T"
    ⟨⟨"\x7b\"nextEventId\":1\x7d", rfl, rfl⟩, rfl, ⟨trivial, trivial⟩, by decide⟩

/-- Claim C7: an append never removes or rewrites journal content — the old
journal is always a prefix of the new one — and a successful append under the
precondition extends it by exactly one newline-terminated line: the compact
serialization of the entry, which itself contains no newline character. -/
theorem claim_C7 :
    (∀ (fs : RunDir) (a : AppendArgs) (now : String),
      ∃ added : String, (appendEvent fs a now).1.journal = fs.journal ++ added)
    ∧ (∀ (fs : RunDir) (fields : List (String × JsonValue)) (n : Int) (a : AppendArgs)
        (now : String), goodState fs fields n →
        (appendEvent fs a now).1.journal
          = fs.journal ++ (dumpsCompactStr (mkEntry a now (String.mk (intToChars n))) ++ "\n")
        ∧ '\n' ∉ (dumpsCompactStr (mkEntry a now (String.mk (intToChars n)))).data) := by
  constructor
  · intro fs a now
    cases hs : fs.stateFile with
    | none =>
      refine ⟨"", ?_⟩
      simp only [appendEvent, hs]
      simp
    | some s =>
      cases hl : loads s with
      | none =>
        refine ⟨"", ?_⟩
        simp only [appendEvent, hs, hl]
        simp
      | some v =>
        cases v with
        | obj fields =>
          cases hpi : pyInt (pyStr ((lookupKey fields "nextEventId").getD (.num 1))) with
          | none =>
            refine ⟨dumpsCompactStr (mkEntry a now
              (pyStr ((lookupKey fields "nextEventId").getD (.num 1)))) ++ "\n", ?_⟩
            simp only [appendEvent, hs, hl, hpi]
            simp [String.append_assoc]
          | some i =>
            refine ⟨dumpsCompactStr (mkEntry a now
              (pyStr ((lookupKey fields "nextEventId").getD (.num 1)))) ++ "\n", ?_⟩
            simp only [appendEvent, hs, hl, hpi]
            simp [String.append_assoc]
        | null => exact ⟨"", by simp only [appendEvent, hs, hl]; simp⟩
        | bool b => exact ⟨"", by simp only [appendEvent, hs, hl]; simp⟩
        | num m => exact ⟨"", by simp only [appendEvent, hs, hl]; simp⟩
        | str t => exact ⟨"", by simp only [appendEvent, hs, hl]; simp⟩
        | arr xs => exact ⟨"", by simp only [appendEvent, hs, hl]; simp⟩
  · intro fs fields n a now h
    obtain ⟨fields2, happ, _, _, _⟩ := appendEvent_step a now h
    rw [happ]
    exact ⟨by simp [String.append_assoc], newline_notin_dumpsC _⟩

/-- Witness for C7 at a concrete run directory. -/
theorem claim_C7_witness :
    (appendEvent ⟨some "\x7b\"nextEventId\":1\x7d", "old\n"⟩
        ⟨"x", "\x7b\x7d", "event", "", ""⟩ "T").1.journal
      = (⟨some "\x7b\"nextEventId\":1\x7d", "old\n"⟩ : RunDir).journal
        ++ (dumpsCompactStr (mkEntry ⟨"x", "\x7b\x7d", "event", "", ""⟩ "T"
            (String.mk (intToChars 1))) ++ "\n")
    ∧ '\n' ∉ (dumpsCompactStr (mkEntry ⟨"x", "\x7b\x7d", "event", "", ""⟩ "T"
        (String.mk (intToChars 1)))).data :=
  claim_C7.2 ⟨some "\x7b\"nextEventId\":1\x7d", "old\n"⟩ [("nextEventId", JsonValue.num 1)] 1
    ⟨"x", "\x7b\x7d", "event", "", ""⟩ "T"
    ⟨⟨"\x7b\"nextEventId\":1\x7d", rfl, rfl⟩, rfl, ⟨trivial, trivial⟩, by decide⟩

/-- Claim C10: a successful append preserves every state field other than
nextEventId and status (the state is updated in place), preserves status when
setStatus is not supplied, and bumps only the counter. -/
theorem claim_C10 (fs : RunDir) (fields : List (String × JsonValue)) (n : Int)
    (a : AppendArgs) (now : String) (h : goodState fs fields n) :
    ∃ st fields2,
      (appendEvent fs a now).2 = none
      ∧ (appendEvent fs a now).1.stateFile = some st
      ∧ loads st = some (.obj fields2)
      ∧ (∀ k, k ≠ "nextEventId" → k ≠ "status" → lookupKey fields2 k = lookupKey fields k)
      ∧ (a.setStatus = "" → lookupKey fields2 "status" = lookupKey fields "status")
      ∧ lookupKey fields2 "nextEventId" = some (.num (n + 1)) := by
  obtain ⟨fields2, happ, hgood2, hframe, hstatus⟩ := appendEvent_step a now h
  obtain ⟨⟨s2, hs2, hl2⟩, hk2, _, _⟩ := hgood2
  refine ⟨dumpsIndentStr (.obj fields2) ++ "\n", fields2, ?_, ?_, ?_, hframe, hstatus, hk2⟩
  · rw [happ]
  · rw [happ]
  · have : dumpsIndentStr (.obj fields2) ++ "\n" = s2 := Option.some.inj hs2
    rw [this]
    exact hl2

/-- Witness for C10 at a concrete state with an extra field. -/
theorem claim_C10_witness :
    ∃ st fields2,
      (appendEvent ⟨some "\x7b\"nextEventId\":3,\"foo\":\"bar\"\x7d", ""⟩
          ⟨"x", "\x7b\x7d", "event", "", ""⟩ "T").2 = none
      ∧ (appendEvent ⟨some "\x7b\"nextEventId\":3,\"foo\":\"bar\"\x7d", ""⟩
          ⟨"x", "\x7b\x7d", "event", "", ""⟩ "T").1.stateFile = some st
      ∧ loads st = some (.obj fields2)
      ∧ (∀ k, k ≠ "nextEventId" → k ≠ "status" →
          lookupKey fields2 k
            = lookupKey [("nextEventId", JsonValue.num 3), ("foo", JsonValue.str "bar")] k)
      ∧ ((⟨"x", "\x7b\x7d", "event", "", ""⟩ : AppendArgs).setStatus = "" →
          lookupKey fields2 "status"
            = lookupKey [("nextEventId", JsonValue.num 3), ("foo", JsonValue.str "bar")] "status")
      ∧ lookupKey fields2 "nextEventId" = some (.num (3 + 1)) :=
  claim_C10 ⟨some "\x7b\"nextEventId\":3,\"foo\":\"bar\"\x7d", ""⟩
    [("nextEventId", JsonValue.num 3), ("foo", JsonValue.str "bar")] 3
    ⟨"x", "\x7b\x7d", "event", "", ""⟩ "T"
    ⟨⟨"\x7b\"nextEventId\":3,\"foo\":\"bar\"\x7d", rfl, rfl⟩, rfl,
      ⟨trivial, trivial, trivial⟩, by decide⟩

/-- Claim C3: over any sequence of appends from a good state with counter n
(no concurrent interference), every call succeeds, call i reads and assigns
id str(n+i) — consecutive, strictly increasing, starting at n (so at 1 for a
fresh state) — and the final counter is n plus the number of calls, one
greater than the last assigned id. -/
theorem claim_C3 (calls : List (AppendArgs × String)) (fs : RunDir)
    (fields : List (String × JsonValue)) (n : Int) (h : goodState fs fields n) :
    (runAppends fs calls).2
      = (List.range calls.length).map
          (fun i : Nat => (some (String.mk (intToChars (n + (i : Int)))), (none : Option PyError)))
    ∧ ∃ fields2, goodState (runAppends fs calls).1 fields2 (n + calls.length) := by
  induction calls generalizing fs fields n with
  | nil =>
    refine ⟨rfl, ⟨fields, ?_⟩⟩
    simpa using h
  | cons c calls ih =>
    obtain ⟨a, now⟩ := c
    obtain ⟨fields2, happ, hgood2, _, _⟩ := appendEvent_step a now h
    have hsid := stateEventId_good h
    obtain ⟨ih1, fields3, ih2⟩ := ih _ _ _ hgood2
    simp only [runAppends, happ, hsid]
    constructor
    · rw [List.length_cons, List.range_succ_eq_map, List.map_cons, List.map_map, ih1]
      congr 1
      · simp
      · refine List.map_congr_left ?_
        intro i _
        have hcast : n + 1 + (i : Int) = n + ((Nat.succ i : Nat) : Int) := by
          push_cast
          ring
        simp [Function.comp, hcast]
    · refine ⟨fields3, ?_⟩
      have harith : n + 1 + (calls.length : Int) = n + ((calls.length + 1 : Nat) : Int) := by
        push_cast
        ring
      rw [List.length_cons, ← harith]
      exact ih2

/-- Witness for C3 at two concrete sequential appends from nextEventId 1. -/
theorem claim_C3_witness :
    (runAppends ⟨some "\x7b\"nextEventId\":1\x7d", ""⟩
        [(⟨"x", "\x7b\x7d", "event", "", ""⟩, "T"), (⟨"y", "\x7b\x7d", "event", "", ""⟩, "U")]).2
      = (List.range ([(⟨"x", "\x7b\x7d", "event", "", ""⟩, "T"),
            (⟨"y", "\x7b\x7d", "event", "", ""⟩, "U")] : List (AppendArgs × String)).length).map
          (fun i : Nat => (some (String.mk (intToChars (1 + (i : Int)))), (none : Option PyError)))
    ∧ ∃ fields2, goodState
        (runAppends ⟨some "\x7b\"nextEventId\":1\x7d", ""⟩
          [(⟨"x", "\x7b\x7d", "event", "", ""⟩, "T"),
           (⟨"y", "\x7b\x7d", "event", "", ""⟩, "U")]).1
        fields2
        (1 + ([(⟨"x", "\x7b\x7d", "event", "", ""⟩, "T"),
            (⟨"y", "\x7b\x7d", "event", "", ""⟩, "U")] : List (AppendArgs × String)).length) :=
  claim_C3 [(⟨"x", "\x7b\x7d", "event", "", ""⟩, "T"), (⟨"y", "\x7b\x7d", "event", "", ""⟩, "U")]
    ⟨some "\x7b\"nextEventId\":1\x7d", ""⟩ [("nextEventId", JsonValue.num 1)] 1
    ⟨⟨"\x7b\"nextEventId\":1\x7d", rfl, rfl⟩, rfl, ⟨trivial, trivial⟩, by decide⟩
